import Mathlib

/-!
Verification development for the chord-chart engine of the `chords` repository.

The file shallowly embeds the four core algorithms of the repository:

* the pitch transposition code of `src/lib/transposition.ts`
  (`parseChord`, `getNoteIndex`, `getNoteAtIndex`, `transposeNote`,
  `transposeChord`);
* the two chord tokenizers: `normalizeChordTokens` (the segmenter's scanner,
  `LyricsLinePositioned`) and `tokenizeGluedChords` with its `cleanChordLabel`
  cleanup pass (`PaginationDebugOverlay.tsx`);
* the line segmenter of `LyricsLinePositioned` (word-boundary snapping,
  merging of chords with an identical snapped offset, trailing trim,
  non-breaking-space placeholders);
* the paginator of `SongDisplayPaged` (greedy hard-limit pass, page chunking,
  page-local balance pass, padding).

JavaScript strings are modelled as `List Char` (with `String` wrappers),
JavaScript numbers as `ℚ` where fractional values matter and as `ℤ`/`ℕ`
elsewhere, and fallible operations as `Option`.  Theorems below settle the
specification's claims about these functions.
-/

/-! ## Character classes shared by the embedded functions -/

/-- Non-breaking space, U+00A0: the placeholder character of the segmenter. -/
def nbspChar : Char := ' '

/-- The ECMAScript white-space class (the `\s` regex class, and the set
trimmed by `String.prototype.trim`). -/
def isJsWhite (c : Char) : Bool :=
  c = ' ' ∨ c = '\t' ∨ c = '\n' ∨ c = '\u000B' ∨ c = '\u000C' ∨ c = '\r' ∨
  c = ' ' ∨ c = ' ' ∨ (' ' ≤ c ∧ c ≤ ' ') ∨
  c = ' ' ∨ c = ' ' ∨ c = ' ' ∨ c = ' ' ∨
  c = '　' ∨ c = '﻿'

/-- Accidental characters: the regex class `[#b♯♭]` (also `[b#♭♯]`) used by
both tokenizers and by the cleanup pass. -/
def isAccChar (c : Char) : Bool :=
  c = '#' ∨ c = 'b' ∨ c = '♯' ∨ c = '♭'

/-- ASCII digit, the regex class `[0-9]`. -/
def isDigitChar (c : Char) : Bool := '0' ≤ c ∧ c ≤ '9'

/-- Uppercase root letter, the regex class `[A-G]`. -/
def isUpperRootChar (c : Char) : Bool := 'A' ≤ c ∧ c ≤ 'G'

/-- Lowercase root letter, the regex class `[a-g]`. -/
def isLowerRootChar (c : Char) : Bool := 'a' ≤ c ∧ c ≤ 'g'

/-- The class `[0-9)]` tested on the previous character by
`tokenizeGluedChords` to decide whether a lowercase letter starts a chord. -/
def isPrevSplitChar (c : Char) : Bool := isDigitChar c ∨ c = ')'

/-- Token separators of the two scanners: the regex class
`[\s(),‎‏‪-‮⁦-⁩]`. -/
def isSepChar (c : Char) : Bool :=
  isJsWhite c ∨ c = '(' ∨ c = ')' ∨ c = ',' ∨
  c = '‎' ∨ c = '‏' ∨ ('‪' ≤ c ∧ c ≤ '‮') ∨
  ('⁦' ≤ c ∧ c ≤ '⁩')

/-- Model of `String.prototype.trimEnd` (drops trailing `isJsWhite`
characters). -/
def trimEndChars (l : List Char) : List Char :=
  (l.reverse.dropWhile isJsWhite).reverse

/-- Model of `String.prototype.trim` (drops `isJsWhite` characters at both
ends). -/
def trimChars (l : List Char) : List Char :=
  trimEndChars (l.dropWhile isJsWhite)

/-! ## Transposition (`src/lib/transposition.ts`) -/

/-- The chromatic scale constant `CHROMATIC_SCALE` (sharps as default),
written as the concatenation of its two halves. -/
def CHROMATIC_SCALE : List String :=
  ["C", "C#", "D", "D#", "E", "F"] ++ ["F#", "G", "G#", "A", "A#", "B"]

/-- The `FLAT_TO_SHARP` lookup table. -/
def FLAT_TO_SHARP : String → Option String
  | "Db" => some "C#"
  | "Eb" => some "D#"
  | "Fb" => some "E"
  | "Gb" => some "F#"
  | "Ab" => some "G#"
  | "Bb" => some "A#"
  | "Cb" => some "B"
  | _ => none

/-- The `SHARP_TO_FLAT` lookup table. -/
def SHARP_TO_FLAT : String → Option String
  | "C#" => some "Db"
  | "D#" => some "Eb"
  | "F#" => some "Gb"
  | "G#" => some "Ab"
  | "A#" => some "Bb"
  | _ => none

/-- JavaScript `str.split('/')`: splits a character list at every slash,
keeping empty parts, always producing at least one part. -/
def splitSlash : List Char → List (List Char)
  | [] => [[]]
  | c :: rest =>
    if c = '/' then [] :: splitSlash rest
    else
      match splitSlash rest with
      | [] => [[c]]
      | p :: ps => (c :: p) :: ps

/-- The regex `^([A-G][#b]?)` of `parseChord`: a root letter optionally
followed by an ASCII sharp or flat. -/
def rootOf : List Char → Option (List Char)
  | [] => none
  | c :: rest =>
    if isUpperRootChar c then
      match rest with
      | d :: _ => if d = '#' ∨ d = 'b' then some [c, d] else some [c]
      | [] => some [c]
    else none

/-- Result type of `parseChord`: root, opaque modifier suffix and optional
bass note (`undefined` is modelled as `none`; a trailing slash yields
`some ""`). -/
structure ParsedChord where
  root : String
  suffix : String
  bass : Option String
deriving Repr, DecidableEq

/-- The `parseChord` function: slash split, then the root regex on the main
chord; `null` on a missing root or empty input. -/
def parseChord (chord : String) : Option ParsedChord :=
  if chord = "" then none
  else
    match splitSlash chord.toList with
    | [] => none
    | mainChord :: restParts =>
      match rootOf mainChord with
      | none => none
      | some root =>
        some { root := root.asString,
               suffix := (mainChord.drop root.length).asString,
               bass := (restParts.head?).map List.asString }

/-- The `getNoteIndex` function: flat-to-sharp normalization, then
`indexOf` in the chromatic scale (`-1` when absent). -/
def getNoteIndex (note : String) : Int :=
  let normalizedNote := (FLAT_TO_SHARP note).getD note
  match CHROMATIC_SCALE.indexOf? normalizedNote with
  | some i => (i : Int)
  | none => -1

/-- The `getNoteAtIndex` function.  `((index % 12) + 12) % 12` is written
with Lean's `Int.emod`; on this double-reduction expression it computes the
same value in `[0, 12)` as JavaScript's sign-of-dividend remainder. -/
def getNoteAtIndex (index : Int) (preferFlat : Bool) : String :=
  let normalizedIndex := ((index % 12) + 12) % 12
  let note := CHROMATIC_SCALE.getD normalizedIndex.toNat ""
  if preferFlat then
    match SHARP_TO_FLAT note with
    | some f => f
    | none => note
  else note

/-- The `transposeNote` function. -/
def transposeNote (note : String) (semitones : Int) : String :=
  let preferFlat := note.toList.contains 'b'
  let index := getNoteIndex note
  if index = -1 then note
  else getNoteAtIndex (index + semitones) preferFlat

/-- Core of `transposeChord` after its `Math.round`: integer semitones.
JavaScript's truthiness test `if (bass)` skips both `undefined` and the
empty string. -/
def transposeChordK (chord : String) (semitonesInt : Int) : String :=
  if semitonesInt = 0 then chord
  else
    match parseChord chord with
    | none => chord
    | some p =>
      let newRoot := transposeNote p.root semitonesInt
      let base := newRoot ++ p.suffix
      match p.bass with
      | some b => if b = "" then base else base ++ "/" ++ transposeNote b semitonesInt
      | none => base

/-- ECMAScript `Math.round`: the closest integer, ties toward plus
infinity. -/
def jsRound (q : ℚ) : Int := ⌊q + 1 / 2⌋

/-- The exported `transposeChord` function: rounds its semitone argument,
then transposes. -/
def transposeChord (chord : String) (semitones : ℚ) : String :=
  transposeChordK chord (jsRound semitones)

/-! ## Chord tokenizers -/

/-- Truthiness of `prevChar !== "/"` style tests: whether the optional
previous character is a slash. -/
def isSlashOpt : Option Char → Bool
  | some '/' => true
  | _ => false

/-- Whether the optional previous character matches `[0-9)]`. -/
def prevSplitOpt : Option Char → Bool
  | some q => isPrevSplitChar q
  | none => false

/-- Whether a character list starts with an ASCII digit (lookahead test of
the flat-modifier rule). -/
def headDigit : List Char → Bool
  | d :: _ => isDigitChar d
  | [] => false

/-- Scanner core of `normalizeChordTokens` (the segmenter's tokenizer in
`LyricsLinePositioned`): uppercase roots only, `/` keeps a bass note in the
current token, alphanumeric characters extend the token, anything else is
skipped.  `p` is the previously read character (`raw[i-1]`), `cur` the token
being built. -/
def normScanF : ℕ → Option Char → List Char → List Char → List (List Char)
  | _, _, cur, [] => if cur.isEmpty then [] else [cur]
  | 0, _, cur, _ :: _ => if cur.isEmpty then [] else [cur]
  | fuel + 1, p, cur, [c] =>
    if isSepChar c then
      if cur.isEmpty then normScanF fuel (some c) [] []
      else cur :: normScanF fuel (some c) [] []
    else if isUpperRootChar c then
      (if !cur.isEmpty && !isSlashOpt p then [cur] else []) ++
        normScanF fuel (some c)
          ((if !cur.isEmpty && !isSlashOpt p then [] else cur) ++ [c]) []
    else if c = '/' then normScanF fuel (some c) (cur ++ [c]) []
    else if ('a' ≤ c ∧ c ≤ 'z') ∨ ('A' ≤ c ∧ c ≤ 'Z') ∨ isDigitChar c then
      normScanF fuel (some c) (cur ++ [c]) []
    else normScanF fuel (some c) cur []
  | fuel + 1, p, cur, c :: d :: rest2 =>
    if isSepChar c then
      if cur.isEmpty then normScanF fuel (some c) [] (d :: rest2)
      else cur :: normScanF fuel (some c) [] (d :: rest2)
    else if isUpperRootChar c then
      (if !cur.isEmpty && !isSlashOpt p then [cur] else []) ++
        (if isAccChar d then
          normScanF fuel (some d)
            ((if !cur.isEmpty && !isSlashOpt p then [] else cur) ++ [c, d]) rest2
        else
          normScanF fuel (some c)
            ((if !cur.isEmpty && !isSlashOpt p then [] else cur) ++ [c]) (d :: rest2))
    else if c = '/' then normScanF fuel (some c) (cur ++ [c]) (d :: rest2)
    else if ('a' ≤ c ∧ c ≤ 'z') ∨ ('A' ≤ c ∧ c ≤ 'Z') ∨ isDigitChar c then
      normScanF fuel (some c) (cur ++ [c]) (d :: rest2)
    else normScanF fuel (some c) cur (d :: rest2)

/-- Scanner of `normalizeChordTokens` at the canonical fuel (one unit per
loop step; a step consumes at least one character, so `l.length` units
always suffice). -/
def normScan (p : Option Char) (cur : List Char) (l : List Char) : List (List Char) :=
  normScanF l.length p cur l

/-- The `normalizeChordTokens` function of `LyricsLinePositioned`. -/
def normalizeChordTokens (chordLabel : String) : List String :=
  (normScan none [] (trimChars chordLabel.toList)).map List.asString

/-- Scanner core of `tokenizeGluedChords` (`PaginationDebugOverlay.tsx`):
like `normScan` but a lowercase root letter also starts a new token when the
previous character matches `[0-9)]` and the letter is not a flat modifier
(`b` followed by a digit); every non-separator character is consumed. -/
def glueScanF : ℕ → Option Char → List Char → List Char → List (List Char)
  | _, _, cur, [] => if cur.isEmpty then [] else [cur]
  | 0, _, cur, _ :: _ => if cur.isEmpty then [] else [cur]
  | fuel + 1, p, cur, [c] =>
    if isSepChar c then
      if cur.isEmpty then glueScanF fuel (some c) [] []
      else cur :: glueScanF fuel (some c) [] []
    else if isUpperRootChar c ||
        (isLowerRootChar c && !cur.isEmpty && prevSplitOpt p &&
          !(c = 'b' && headDigit [])) then
      (if !cur.isEmpty && !isSlashOpt p then [cur] else []) ++
        glueScanF fuel (some c)
          ((if !cur.isEmpty && !isSlashOpt p then [] else cur) ++ [c]) []
    else if c = '/' then glueScanF fuel (some c) (cur ++ [c]) []
    else glueScanF fuel (some c) (cur ++ [c]) []
  | fuel + 1, p, cur, c :: d :: rest2 =>
    if isSepChar c then
      if cur.isEmpty then glueScanF fuel (some c) [] (d :: rest2)
      else cur :: glueScanF fuel (some c) [] (d :: rest2)
    else if isUpperRootChar c ||
        (isLowerRootChar c && !cur.isEmpty && prevSplitOpt p &&
          !(c = 'b' && headDigit (d :: rest2))) then
      (if !cur.isEmpty && !isSlashOpt p then [cur] else []) ++
        (if isAccChar d then
          glueScanF fuel (some d)
            ((if !cur.isEmpty && !isSlashOpt p then [] else cur) ++ [c, d]) rest2
        else
          glueScanF fuel (some c)
            ((if !cur.isEmpty && !isSlashOpt p then [] else cur) ++ [c]) (d :: rest2))
    else if c = '/' then glueScanF fuel (some c) (cur ++ [c]) (d :: rest2)
    else glueScanF fuel (some c) (cur ++ [c]) (d :: rest2)

/-- Scanner of `tokenizeGluedChords` at the canonical fuel (one unit per
loop step; a step consumes at least one character, so `l.length` units
always suffice). -/
def glueScan (p : Option Char) (cur : List Char) (l : List Char) : List (List Char) :=
  glueScanF l.length p cur l

/-- First replacement of `cleanChordLabel`: the global regex
`\s+([b#♯♭])(\d+)` with replacement `$1$2`, i.e. a white-space run
immediately preceding an accidental-plus-digit modifier is dropped. -/
def regex1sub : List Char → List Char
  | [] => []
  | c :: rest =>
    if isJsWhite c &&
        (match rest.dropWhile isJsWhite with
         | a :: x :: _ => isAccChar a && isDigitChar x
         | _ => false) then
      regex1sub rest
    else c :: regex1sub rest

/-- Second replacement of `cleanChordLabel`: the regex `\s+([b#♯♭])$` with
replacement `$1`, i.e. a white-space run immediately preceding a final lone
accidental is dropped. -/
def regex2sub (l : List Char) : List Char :=
  match l.reverse with
  | a :: rest =>
    if isAccChar a && (match rest.head? with | some w => isJsWhite w | none => false) then
      (a :: rest.dropWhile isJsWhite).reverse
    else l
  | [] => l

/-- The `cleanChordLabel` function: both regex replacements, then `trim`. -/
def cleanLabelL (l : List Char) : List Char :=
  trimChars (regex2sub (regex1sub l))

/-- String-level `cleanChordLabel`. -/
def cleanChordLabel (chordLabel : String) : String :=
  (cleanLabelL chordLabel.toList).asString

/-- List-level `tokenizeGluedChords`: cleanup pass, `trim`, then the glue
scanner. -/
def glueTokens (l : List Char) : List (List Char) :=
  glueScan none [] (trimChars (cleanLabelL l))

/-- The `tokenizeGluedChords` function of `PaginationDebugOverlay.tsx`. -/
def tokenizeGluedChords (chordLabel : String) : List String :=
  (glueTokens chordLabel.toList).map List.asString

/-- JavaScript `tokens.join(" ")` on a token list. -/
def joinSpace : List (List Char) → List Char
  | [] => []
  | [t] => t
  | t :: ts => t ++ ' ' :: joinSpace ts

/-- String-level `join(" ")`. -/
def joinSpaceStr (ts : List String) : String :=
  (joinSpace (ts.map String.toList)).asString

/-! ## Line segmenter (`LyricsLinePositioned`) -/

/-- The `ChordPosition` record `{ chord, at }`; the offset field `at` is a
Lean keyword and is called `pos` here.  Offsets may be negative, unsorted or
beyond the end of the lyrics. -/
structure ChordPosition where
  chord : String
  pos : Int
deriving Repr, DecidableEq

/-- A display segment of the segmenter: a run of lyric text with the chord
labels stacked above it (`none` for a chord-less run). -/
structure Segment where
  text : List Char
  chordTokens : Option (List String)
deriving Repr, DecidableEq

/-- The non-breaking-space placeholder as a string. -/
def nbspString : String := List.asString [nbspChar]

/-- JavaScript `lyrics.lastIndexOf(" ", pos)`: the largest index of a space
character that is `≤ pos` (after clamping `pos` into `[0, length]`), or
`-1`. -/
def lastSpaceIdx (lyr : List Char) (pos : Int) : Int :=
  let bound := min (max pos 0) ((lyr.length : Int))
  let hits := (List.range lyr.length).filter
    (fun i => (lyr.getD i 'x' == ' ') && decide ((i : Int) ≤ bound))
  ((hits.map (fun i => (i : Int))).max?).getD (-1)

/-- The segmenter's `computeSnappedAt` closure: clamp the raw offset into
`[0, length]`, then snap back to the start of the current word when that
start is still at or after `lastEnd`. -/
def computeSnappedAt (lyr : List Char) (lastEnd : ℕ) (pos : Int) : ℕ :=
  let clampedAt : ℕ := (min (max 0 pos) (lyr.length : Int)).toNat
  let prevSpace := lastSpaceIdx lyr ((clampedAt : Int) - 1)
  let wordStart : ℕ := if prevSpace ≥ 0 then (prevSpace + 1).toNat else 0
  if wordStart ≥ lastEnd ∧ wordStart < clampedAt then wordStart else clampedAt

/-- JavaScript `lyrics.slice(a, b)` for already-clamped indices. -/
def sliceL (lyr : List Char) (a b : ℕ) : List Char :=
  (lyr.drop a).take (b - a)

/-- The segmenter's per-chord label pipeline `transposeChordLabel`:
tokenize with `normalizeChordTokens`, then transpose every token.  The
component computes integer semitones (`Math.round(transposition * 2)`)
before calling `transposeChord`, whose own rounding is then the identity
(theorem `transposeChord_intCast` below), so the integer core is called
directly. -/
def transposeChordLabel (chordLabel : String) (semitones : Int) : List String :=
  (normalizeChordTokens chordLabel).map (fun t => transposeChordK t semitones)

/-- Sorting `[...chords].sort((a, b) => a.at - b.at)`: JavaScript's sort is
stable, so it agrees with insertion sort by the offset. -/
def sortChords (chords : List ChordPosition) : List ChordPosition :=
  List.insertionSort (fun a b => a.pos ≤ b.pos) chords

/-- Main loop of the segmenter over the sorted chord list.  Each step
consumes the group of chords whose snapped offset equals that of the first
remaining chord (the code's inner `while j < sorted.length &&
computeSnappedAt(sorted[j].at) === startAt` merge loop, which reads the
`lastEnd` from before the group), emits an optional chord-less gap segment
and the group's segment, and recurses from `clampedNext`. -/
def segsAuxF (lyr : List Char) (k : Int) : ℕ → List ChordPosition → ℕ → List Segment
  | _, [], lastEnd =>
    if lastEnd < lyr.length then [⟨trimEndChars (lyr.drop lastEnd), none⟩] else []
  | 0, _ :: _, _ => []
  | fuel + 1, c :: rest, lastEnd =>
    let startAt := computeSnappedAt lyr lastEnd c.pos
    let inGroup := fun (d : ChordPosition) => computeSnappedAt lyr lastEnd d.pos == startAt
    let group := rest.takeWhile inGroup
    let rest' := rest.dropWhile inGroup
    let labels := (c :: group).flatMap (fun d => transposeChordLabel d.chord k)
    let nextAt : Int := match rest'.head? with
      | some d => d.pos
      | none => (lyr.length : Int)
    let clampedNext : ℕ := (min (max (startAt : Int) nextAt) (lyr.length : Int)).toNat
    let gap : List Segment :=
      if lastEnd < startAt then [⟨sliceL lyr lastEnd startAt, none⟩] else []
    let segText := sliceL lyr startAt clampedNext
    let isLast := rest'.isEmpty && decide (lyr.length ≤ clampedNext)
    let segText' := if isLast then trimEndChars segText else segText
    gap ++ ⟨if segText'.isEmpty then [nbspChar] else segText',
            some (if labels.isEmpty then [nbspString] else labels)⟩ ::
      segsAuxF lyr k fuel rest' clampedNext

/-- Segment loop at the canonical fuel (each step consumes at least the
group's first chord, so `cs.length` units always suffice). -/
def segsAux (lyr : List Char) (k : Int) (cs : List ChordPosition) (lastEnd : ℕ) :
    List Segment :=
  segsAuxF lyr k cs.length cs lastEnd

/-- The segmenter of `LyricsLinePositioned` (the `segments` `useMemo`):
empty lyrics give no segments, a chord-less line is a single chord-less
segment, otherwise the chords are sorted by offset and grouped. -/
def segments (lyr : List Char) (chords : List ChordPosition) (k : Int) : List Segment :=
  if lyr.isEmpty then []
  else if chords.isEmpty then [⟨lyr, none⟩]
  else segsAux lyr k (sortChords chords) 0

/-! ## Paginator (`SongDisplayPaged`) -/

/-- Greedy hard-limit pass (STEP 1): walk the measured lines in order,
breaking to a new column when a non-empty column would exceed the container
height.  A line is a pair of an abstract `SongLine` value and its measured
pixel height. -/
def greedyAux {α : Type} (H : ℚ) : List (α × ℚ) → List (α × ℚ) → ℚ → List (List (α × ℚ))
  | [], cur, _ => if cur.isEmpty then [] else [cur]
  | (a, h) :: rest, cur, ch =>
    if 0 < ch ∧ H < ch + h then
      cur :: greedyAux H rest [(a, h)] h
    else greedyAux H rest (cur ++ [(a, h)]) (ch + h)

/-- The greedy columns of a measured document. -/
def greedyCols {α : Type} (H : ℚ) (items : List (α × ℚ)) : List (List (α × ℚ)) :=
  greedyAux H items [] 0

/-- Splitting the greedy columns into pages of `cols` columns
(`greedyColumns.slice(pageIdx*cols, ...)`). -/
def chunksOfF {α : Type} : ℕ → ℕ → List α → List (List α)
  | _, _, [] => []
  | 0, _, _ :: _ => []
  | fuel + 1, n, x :: xs =>
    if n = 0 then []
    else ((x :: xs).take n) :: chunksOfF fuel n ((x :: xs).drop n)

/-- Page chunking at the canonical fuel (each step drops `n ≥ 1` columns,
so `l.length` units always suffice). -/
def chunksOf {α : Type} (n : ℕ) (l : List α) : List (List α) :=
  chunksOfF l.length n l

/-- Balance pass within one page (STEP 3): redistribute the page's lines,
breaking to the next column when the hard limit or the per-column target
would be exceeded — but never past the page's greedy column count
(`pageCols.length < activeColsInPage - 1`). -/
def balanceAux {α : Type} (H target : ℚ) (activeCols : ℕ) :
    List (α × ℚ) → List (List (α × ℚ)) → List (α × ℚ) → ℚ → List (List (α × ℚ))
  | [], done, cur, _ => done ++ (if cur.isEmpty then [] else [cur])
  | (a, h) :: rest, done, cur, ch =>
    let remainingLines := rest.length + 1
    let remainingCols := activeCols - done.length
    let wouldExceedMax := 0 < ch ∧ H < ch + h
    let wouldExceedTarget := 0 < ch ∧ target < ch + h
    let shouldBreak := wouldExceedMax ∨
      (wouldExceedTarget ∧ remainingCols ≤ remainingLines ∧ 1 < remainingCols)
    if shouldBreak ∧ done.length + 1 < activeCols then
      balanceAux H target activeCols rest (done ++ [cur]) [(a, h)] h
    else balanceAux H target activeCols rest done (cur ++ [(a, h)]) (ch + h)

/-- Balancing one page: its lines are the concatenation of its greedy
columns, the target height is `pageTotalHeight / activeColsInPage`. -/
def balancePage {α : Type} (H : ℚ) (pageGreedyCols : List (List (α × ℚ))) :
    List (List (α × ℚ)) :=
  let pageLines := pageGreedyCols.flatten
  let pageTotalHeight : ℚ := (pageLines.map Prod.snd).sum
  let activeCols := pageGreedyCols.length
  let target := pageTotalHeight / (activeCols : ℚ)
  balanceAux H target activeCols pageLines [] [] 0

/-- Pages of balanced, unpadded columns: greedy pass, page chunking, then
the per-page balance pass. -/
def paginateCore {α : Type} (items : List (α × ℚ)) (H : ℚ) (cols : ℕ) :
    List (List (List (α × ℚ))) :=
  (chunksOf cols (greedyCols H items)).map (balancePage H)

/-- The full pagination computation of `SongDisplayPaged`: balanced pages,
each padded with empty columns up to `cols`; an empty document yields a
single page of empty columns. -/
def paginate {α : Type} (items : List (α × ℚ)) (H : ℚ) (cols : ℕ) :
    List (List (List (α × ℚ))) :=
  let padded := (paginateCore items H cols).map
    (fun p => p ++ List.replicate (cols - p.length) [])
  if padded.isEmpty then [List.replicate cols []] else padded

/-- Summed line heights of a column. -/
def colSum {α : Type} (col : List (α × ℚ)) : ℚ := (col.map Prod.snd).sum

/-- Flattening a page layout in (page, column, position) order. -/
def flattenLayout {α : Type} (pages : List (List (List (α × ℚ)))) : List (α × ℚ) :=
  (pages.map List.flatten).flatten

/-! ## Supporting lemmas for the rounding wrapper -/

/-- Rounding an integer-valued semitone argument is the identity. -/
theorem jsRound_intCast (n : ℤ) : jsRound ((n : ℤ) : ℚ) = n := by
  unfold jsRound
  rw [add_comm, Int.floor_add_int]
  norm_num

/-- On integer semitone counts the exported function agrees with its integer
core. -/
theorem transposeChord_intCast (c : String) (n : ℤ) :
    transposeChord c ((n : ℤ) : ℚ) = transposeChordK c n := by
  unfold transposeChord
  rw [jsRound_intCast]

/-! ## Claim theorems: transposition -/

/-- C10: the semitone argument of `transposeChord` is rounded to the nearest
integer before any processing, so any real argument behaves like its rounded
value; in particular any argument of absolute value below one half behaves
like zero and returns the chord unchanged. -/
theorem fractional_semitone_rounding (c : String) (q : ℚ) :
    transposeChord c q = transposeChord c ((jsRound q : ℤ) : ℚ) ∧
    (|q| < 1 / 2 → transposeChord c q = c) := by
  constructor
  · unfold transposeChord
    rw [jsRound_intCast]
  · intro h
    have h0 : jsRound q = 0 := by
      unfold jsRound
      rw [abs_lt] at h
      rw [Int.floor_eq_zero_iff, Set.mem_Ico]
      constructor
      · linarith [h.1]
      · linarith [h.2]
    unfold transposeChord
    rw [h0]
    rfl

/-- Closed witness for C10 at the chord `"Am"` and the fractional semitone
count `1/4`. -/
theorem fractional_semitone_rounding_witness :
    transposeChord "Am" (1 / 4 : ℚ) = transposeChord "Am" ((jsRound (1 / 4 : ℚ) : ℤ) : ℚ) ∧
    transposeChord "Am" (1 / 4 : ℚ) = "Am" :=
  ⟨(fractional_semitone_rounding "Am" (1 / 4)).1,
   (fractional_semitone_rounding "Am" (1 / 4)).2 (by rw [abs_lt]; constructor <;> norm_num)⟩

/-- C9: `transposeChord` is a total function, and whenever `parseChord`
finds no recognizable root the input string is returned unchanged, for every
integer semitone count. -/
theorem unparseable_chord_fallback (s : String) (n : ℤ) (h : parseChord s = none) :
    transposeChord s ((n : ℤ) : ℚ) = s := by
  rw [transposeChord_intCast]
  unfold transposeChordK
  rw [h]
  split <;> rfl

/-- Closed witness for C9: the unparseable label `"hello"` is returned
unchanged when transposed by five semitones. -/
theorem unparseable_chord_fallback_witness :
    parseChord "hello" = none ∧ transposeChord "hello" ((5 : ℤ) : ℚ) = "hello" :=
  ⟨by decide, unparseable_chord_fallback "hello" 5 (by decide)⟩

/-- C5 counterexample: `transposeChord("Cb", 12)` renders the root through
the sharp-spelled scale and the `SHARP_TO_FLAT` table, which has no entry
for `B`, so the result is `"B"` and not the original spelling `"Cb"`. -/
theorem transposition_periodicity_counterexample :
    transposeChord "Cb" ((12 : ℤ) : ℚ) = "B" ∧
    transposeChord "Cb" ((12 : ℤ) : ℚ) ≠ "Cb" := by
  rw [transposeChord_intCast]
  constructor <;> decide

/-- C6 counterexample: the canonically spelled chord `"C#b9"` (root `C#`,
suffix `b9`) transposed up one semitone renders as `"Db9"`, which re-parses
with root `"Db"`; transposing back down gives `"C9"`, not the original. -/
theorem transposition_round_trip_counterexample :
    transposeChord (transposeChord "C#b9" ((1 : ℤ) : ℚ)) ((-1 : ℤ) : ℚ) = "C9" ∧
    transposeChord (transposeChord "C#b9" ((1 : ℤ) : ℚ)) ((-1 : ℤ) : ℚ) ≠ "C#b9" := by
  rw [transposeChord_intCast, transposeChord_intCast]
  constructor <;> decide

/-! ## Claim theorems: tokenizer computations -/

/-- C8: the cleanup pass removes the whitespace in `"Bm7 b5"` before the
accidental-plus-digit modifier, and the scanner then treats `b5` as a flat
modifier, producing the single token `"Bm7b5"`. -/
theorem tokenizer_detached_flat_cleanup :
    tokenizeGluedChords "Bm7 b5" = ["Bm7b5"] ∧ cleanChordLabel "Bm7 b5" = "Bm7b5" := by
  constructor <;> decide

/-- C7 counterexample: tokenizing `"A (b5)"` yields `["A", "b5"]`, but
re-tokenizing the space-joined output `"A b5"` lets the cleanup pass glue
the detached `b5` onto the `A`, yielding `["Ab5"]`. -/
theorem tokenizer_idempotence_counterexample :
    tokenizeGluedChords "A (b5)" = ["A", "b5"] ∧
    tokenizeGluedChords (joinSpaceStr (tokenizeGluedChords "A (b5)")) = ["Ab5"] ∧
    tokenizeGluedChords (joinSpaceStr (tokenizeGluedChords "A (b5)")) ≠
      tokenizeGluedChords "A (b5)" := by
  have h1 : tokenizeGluedChords "A (b5)" = ["A", "b5"] := by decide
  have h2 : tokenizeGluedChords (joinSpaceStr ["A", "b5"]) = ["Ab5"] := by decide
  refine ⟨h1, by rw [h1]; exact h2, by rw [h1, h2]; decide⟩

/-! ## Claim theorems: segmenter counterexamples -/

/-- Reading of a segment text under claim C3: a text equal to the single
non-breaking space is read as the empty string. -/
def segTextDecoded (s : Segment) : List Char :=
  if s.text = [nbspChar] then [] else s.text

/-- Concatenation of all decoded segment texts, in order. -/
def decodedConcat (segs : List Segment) : List Char :=
  (segs.map segTextDecoded).flatten

/-- Number of chord labels of one segment as counted by claim C4. -/
def segLabelCount (s : Segment) : ℕ :=
  (s.chordTokens.getD []).length

/-- Total number of chord labels of a segment list as counted by claim
C4. -/
def totalLabelCount (segs : List Segment) : ℕ :=
  (segs.map segLabelCount).sum

/-- Evaluation of the segmenter on the C3 counterexample input. -/
theorem segments_nbsp_eval :
    segments ("a b" ++ (String.mk [nbspChar]) ++ "c").toList
        [⟨"C", 0⟩, ⟨"D", 3⟩, ⟨"E", 4⟩] 0 =
      [⟨['a', ' ', 'b'], some ["C"]⟩, ⟨[nbspChar], some ["D"]⟩, ⟨['c'], some ["E"]⟩] := by
  decide

/-- C3 counterexample: for lyrics containing a literal non-breaking space
(offsets 0, 3 and 4 of `"a b\u00A0c"`), the segment covering the real
U+00A0 character is exactly the non-breaking space, so the reading
prescribed by the claim erases it and no whitespace-only suffix can repair
the concatenation. -/
theorem segmenter_coverage_counterexample :
    ¬ ∃ t : List Char, (∀ c ∈ t, isJsWhite c) ∧
      decodedConcat (segments ("a b" ++ (String.mk [nbspChar]) ++ "c").toList
        [⟨"C", 0⟩, ⟨"D", 3⟩, ⟨"E", 4⟩] 0) ++ t =
      ("a b" ++ (String.mk [nbspChar]) ++ "c").toList := by
  rintro ⟨t, -, ht⟩
  rw [segments_nbsp_eval] at ht
  have hd : decodedConcat
      [⟨['a', ' ', 'b'], some ["C"]⟩, ⟨[nbspChar], some ["D"]⟩, ⟨['c'], some ["E"]⟩] =
      ['a', ' ', 'b', 'c'] := by decide
  rw [hd] at ht
  have hr : ("a b" ++ (String.mk [nbspChar]) ++ "c").toList = ['a', ' ', 'b', nbspChar, 'c'] := rfl
  rw [hr] at ht
  simp only [List.cons_append, List.nil_append, List.cons.injEq] at ht
  exact absurd ht.2.2.2.1 (by decide)

/-- Evaluation of the segmenter on the C4 counterexample input. -/
theorem segments_glued_eval :
    segments "ab".toList [⟨"E7Am", 0⟩] 0 = [⟨['a', 'b'], some ["E7", "Am"]⟩] := by
  decide

/-- C4 counterexample: a single `ChordPosition` whose label is the glued
chord `"E7Am"` produces two chord labels (`"E7"`, `"Am"`) in the output
segments, so the total label count differs from the entry count. -/
theorem segmenter_chord_count_counterexample :
    totalLabelCount (segments "ab".toList [⟨"E7Am", 0⟩] 0) = 2 ∧
    totalLabelCount (segments "ab".toList [⟨"E7Am", 0⟩] 0) ≠
      ([(⟨"E7Am", 0⟩ : ChordPosition)]).length := by
  rw [segments_glued_eval]
  constructor <;> decide

/-! ## Claim theorems: paginator counterexample -/

/-- Evaluation of the paginator on the C1 counterexample input. -/
theorem paginate_overflow_eval :
    paginate [((0 : ℕ), (10 : ℚ)), (1, 60), (2, 60)] 100 2 =
      [[[(0, 10)], [(1, 60), (2, 60)]]] := by
  norm_num [paginate, paginateCore, greedyCols, greedyAux, chunksOf, chunksOfF,
    balancePage, balanceAux]

/-- C1 counterexample: for measured heights 10, 60, 60 (all below the
container height 100) and two columns, the greedy pass produces the columns
`[10, 60]`, `[60]`; the page-local balance pass moves the 60-line out of the
first column and then may not break inside the final column, producing the
columns `[10]`, `[60, 60]` whose second sum 120 exceeds the container
height. -/
theorem paginator_hard_limit_counterexample :
    (∀ p ∈ [((0 : ℕ), (10 : ℚ)), (1, 60), (2, 60)], p.2 ≤ 100) ∧
    ¬ (∀ page ∈ paginate [((0 : ℕ), (10 : ℚ)), (1, 60), (2, 60)] 100 2,
        ∀ col ∈ page, colSum col ≤ 100) := by
  constructor
  · intro p hp
    simp only [List.mem_cons, List.not_mem_nil, or_false] at hp
    rcases hp with rfl | rfl | rfl <;> norm_num
  · intro hall
    have hmem := hall [[(0, 10)], [(1, 60), (2, 60)]]
      (by rw [paginate_overflow_eval]; exact List.mem_singleton.mpr rfl)
      [(1, 60), (2, 60)] (by simp)
    have hv : colSum [((1 : ℕ), (60 : ℚ)), (2, 60)] = 120 := by
      unfold colSum
      norm_num
    rw [hv] at hmem
    exact absurd hmem (by norm_num)

/-! ## Paginator lemmas -/

/-- Column sum of the empty column. -/
theorem colSum_nil {α : Type} : colSum ([] : List (α × ℚ)) = 0 := rfl

/-- Column sum of a one-line column. -/
theorem colSum_singleton {α : Type} (p : α × ℚ) : colSum [p] = p.2 := by
  simp [colSum]

/-- Column sum after appending one line. -/
theorem colSum_append_singleton {α : Type} (l : List (α × ℚ)) (p : α × ℚ) :
    colSum (l ++ [p]) = colSum l + p.2 := by
  simp [colSum]

/-- The greedy pass only regroups: concatenating its columns restores the
accumulated column followed by the remaining lines. -/
theorem greedyAux_flatten {α : Type} (H : ℚ) :
    ∀ (it cur : List (α × ℚ)) (ch : ℚ), (greedyAux H it cur ch).flatten = cur ++ it := by
  intro it
  induction it with
  | nil =>
    intro cur ch
    cases cur <;> simp [greedyAux]
  | cons p rest ih =>
    intro cur ch
    obtain ⟨a, h⟩ := p
    rw [greedyAux]
    split
    · simp [ih]
    · simp [ih]

/-- Concatenating the greedy columns restores the document. -/
theorem greedyCols_flatten {α : Type} (H : ℚ) (items : List (α × ℚ)) :
    (greedyCols H items).flatten = items := by
  simp [greedyCols, greedyAux_flatten]

/-- Every greedy column is below the container height, provided every line
is and the accumulated column is. -/
theorem greedyAux_cols_le {α : Type} (H : ℚ) :
    ∀ (it cur : List (α × ℚ)) (ch : ℚ), (∀ p ∈ it, p.2 ≤ H) → colSum cur = ch →
      ch ≤ H → ∀ col ∈ greedyAux H it cur ch, colSum col ≤ H := by
  intro it
  induction it with
  | nil =>
    intro cur ch _ hcur hch col hcol
    cases cur with
    | nil => simp [greedyAux] at hcol
    | cons q l =>
      simp [greedyAux] at hcol
      rw [hcol, hcur]
      exact hch
  | cons p rest ih =>
    intro cur ch hit hcur hch col hcol
    obtain ⟨a, h⟩ := p
    have hha : h ≤ H := hit (a, h) (by simp)
    have hrest : ∀ q ∈ rest, q.2 ≤ H := fun q hq => hit q (by simp [hq])
    rw [greedyAux] at hcol
    split at hcol
    · rcases List.mem_cons.mp hcol with rfl | hmem
      · rw [hcur]; exact hch
      · exact ih [(a, h)] h hrest (colSum_singleton _) hha col hmem
    · rename_i hng
      have hch' : ch + h ≤ H := by
        rcases le_or_lt ch 0 with hle | hpos
        · linarith
        · have := (not_and_or.mp hng).resolve_left (by exact fun hcon => hcon hpos)
          linarith [not_lt.mp this]
      exact ih (cur ++ [(a, h)]) (ch + h) hrest
        (by rw [colSum_append_singleton, hcur]) hch' col hcol

/-- Fuel above the list length is irrelevant to the page chunking. -/
theorem chunksOfF_fuel_eq {α : Type} (n : ℕ) :
    ∀ (len : ℕ) (l : List α) (f₁ f₂ : ℕ), l.length = len → len ≤ f₁ → len ≤ f₂ →
      chunksOfF f₁ n l = chunksOfF f₂ n l := by
  intro len
  induction len using Nat.strong_induction_on with
  | _ len ih =>
    intro l f₁ f₂ hl h1 h2
    cases l with
    | nil => cases f₁ <;> cases f₂ <;> rfl
    | cons x xs =>
      subst hl
      obtain ⟨g₁, rfl⟩ : ∃ g, f₁ = g + 1 := ⟨f₁ - 1, by simp at h1; omega⟩
      obtain ⟨g₂, rfl⟩ : ∃ g, f₂ = g + 1 := ⟨f₂ - 1, by simp at h2; omega⟩
      simp only [chunksOfF]
      by_cases hn : n = 0
      · simp [hn]
      · simp only [hn, if_false]
        congr 1
        have hdl : ((x :: xs).drop n).length < (x :: xs).length := by
          simp only [List.length_drop, List.length_cons]
          omega
        exact ih _ hdl _ _ _ rfl (by simp_all; omega) (by simp_all; omega)

/-- Step equation of the page chunking on a non-empty list with a positive
chunk size. -/
theorem chunksOf_cons {α : Type} (n : ℕ) (hn : 0 < n) (x : α) (xs : List α) :
    chunksOf n (x :: xs) = ((x :: xs).take n) :: chunksOf n ((x :: xs).drop n) := by
  unfold chunksOf
  simp only [chunksOfF, List.length_cons]
  have hne : ¬ n = 0 := Nat.pos_iff_ne_zero.mp hn
  simp only [hne, if_false]
  congr 1
  exact chunksOfF_fuel_eq n ((x :: xs).drop n).length _ _ _ rfl
    (by simp only [List.length_drop, List.length_cons]; omega) le_rfl

/-- Concatenating the chunks restores the column list. -/
theorem chunksOf_flatten {α : Type} (n : ℕ) (hn : 0 < n) (l : List α) :
    (chunksOf n l).flatten = l := by
  have main : ∀ (len : ℕ) (l : List α), l.length = len → (chunksOf n l).flatten = l := by
    intro len
    induction len using Nat.strong_induction_on with
    | _ len ih =>
      intro l hl
      cases l with
      | nil => rfl
      | cons x xs =>
        rw [chunksOf_cons n hn]
        simp only [List.flatten_cons]
        have hdl : ((x :: xs).drop n).length < len := by
          subst hl
          simp only [List.length_drop, List.length_cons]
          omega
        rw [ih _ hdl _ rfl, List.take_append_drop]
  exact main l.length l rfl

/-- Every chunk element belongs to the original list. -/
theorem chunksOf_mem {α : Type} (n : ℕ) (hn : 0 < n) (l : List α)
    (c : α) (chunk : List α) (hchunk : chunk ∈ chunksOf n l) (hc : c ∈ chunk) :
    c ∈ l := by
  rw [← chunksOf_flatten n hn l]
  exact List.mem_flatten.mpr ⟨chunk, hchunk, hc⟩

/-- The balance pass only regroups: concatenating its columns restores the
finished columns, the open column and the remaining lines. -/
theorem balanceAux_flatten {α : Type} (H target : ℚ) (activeCols : ℕ) :
    ∀ (pls : List (α × ℚ)) (done : List (List (α × ℚ))) (cur : List (α × ℚ)) (ch : ℚ),
      (balanceAux H target activeCols pls done cur ch).flatten =
        done.flatten ++ cur ++ pls := by
  intro pls
  induction pls with
  | nil =>
    intro done cur ch
    cases cur <;> simp [balanceAux]
  | cons p rest ih =>
    intro done cur ch
    obtain ⟨a, h⟩ := p
    rw [balanceAux]
    split
    · rw [ih]
      simp
    · rw [ih]
      simp

/-- Concatenating the balanced columns of a page restores the page's
lines. -/
theorem balancePage_flatten {α : Type} (H : ℚ) (chunk : List (List (α × ℚ))) :
    (balancePage H chunk).flatten = chunk.flatten := by
  unfold balancePage
  rw [balanceAux_flatten]
  simp

/-- Nonempty documents yield a nonempty greedy column list. -/
theorem greedyAux_ne_nil {α : Type} (H : ℚ) :
    ∀ (it cur : List (α × ℚ)) (ch : ℚ), it ≠ [] ∨ cur ≠ [] →
      greedyAux H it cur ch ≠ [] := by
  intro it
  induction it with
  | nil =>
    intro cur ch hne
    rcases hne with hne | hne
    · exact absurd rfl hne
    · cases cur with
      | nil => exact absurd rfl hne
      | cons q l => simp [greedyAux]
  | cons p rest ih =>
    intro cur ch _
    obtain ⟨a, h⟩ := p
    rw [greedyAux]
    split
    · simp
    · exact ih _ _ (Or.inr (by simp))

/-! ## Claim theorems: paginator -/

/-- C2: flattening the produced page layout in (page, column, position)
order yields exactly the original measured line list — the padded empty
columns contribute nothing, neither the greedy pass nor the balance pass
drops, duplicates or reorders a line. -/
theorem paginator_conservation {α : Type} (items : List (α × ℚ)) (H : ℚ)
    (cols : ℕ) (hc : 0 < cols) :
    flattenLayout (paginate items H cols) = items := by
  unfold paginate flattenLayout
  cases hitems : items with
  | nil =>
    have hg : greedyCols H ([] : List (α × ℚ)) = [] := by rfl
    simp [paginateCore, hg, chunksOf, chunksOfF, List.flatten_replicate_nil]
  | cons q l =>
    have hg : greedyCols H (q :: l) ≠ [] := by
      unfold greedyCols
      exact greedyAux_ne_nil H _ _ _ (Or.inl (by simp))
    have hcore : paginateCore (q :: l) H cols ≠ [] := by
      unfold paginateCore
      simp only [ne_eq, List.map_eq_nil_iff]
      cases hgc : greedyCols H (q :: l) with
      | nil => exact absurd hgc hg
      | cons c cs =>
        rw [chunksOf_cons cols hc]
        simp
    have hpad : (paginateCore (q :: l) H cols).map
        (fun p => p ++ List.replicate (cols - p.length) []) ≠ [] := by
      simpa using hcore
    rw [if_neg (by simpa using hpad)]
    rw [List.map_map]
    have hmapflat : ∀ p : List (List (α × ℚ)),
        (p ++ List.replicate (cols - p.length) ([] : List (α × ℚ))).flatten = p.flatten := by
      intro p
      rw [List.flatten_append, List.flatten_replicate_nil, List.append_nil]
    calc ((paginateCore (q :: l) H cols).map
          (List.flatten ∘ fun p => p ++ List.replicate (cols - p.length) [])).flatten
        = ((paginateCore (q :: l) H cols).map List.flatten).flatten := by
          congr 1
          exact List.map_congr_left (fun p _ => hmapflat p)
      _ = q :: l := by
          unfold paginateCore
          rw [List.map_map]
          have : List.flatten ∘ balancePage H =
              fun chunk : List (List (α × ℚ)) => chunk.flatten := by
            funext chunk
            exact balancePage_flatten H chunk
          rw [this]
          have hjoin : ∀ (cs : List (List (List (α × ℚ)))),
              (cs.map List.flatten).flatten = cs.flatten.flatten := by
            intro cs
            induction cs with
            | nil => rfl
            | cons c cs ih => simp [ih]
          rw [hjoin, chunksOf_flatten cols hc, greedyCols_flatten]

/-- Closed witness for C2 on a three-line document with two columns. -/
theorem paginator_conservation_witness :
    flattenLayout (paginate [((0 : ℕ), (10 : ℚ)), (1, 60), (2, 60)] 100 2) =
      [((0 : ℕ), (10 : ℚ)), (1, 60), (2, 60)] :=
  paginator_conservation [((0 : ℕ), (10 : ℚ)), (1, 60), (2, 60)] 100 2 (by norm_num)

/-- In the balance pass, every finished column except the page's final one
stays below the container height: a break always fires before the hard
limit while earlier columns remain, and only the final column accumulates
without the guard. -/
theorem balanceAux_dropLast_le {α : Type} (H target : ℚ) (a : ℕ) :
    ∀ (pls : List (α × ℚ)) (done : List (List (α × ℚ))) (cur : List (α × ℚ)) (ch : ℚ),
      (∀ p ∈ pls, p.2 ≤ H) → colSum cur = ch →
      (done.length + 1 < a → ch ≤ H) →
      (∀ col ∈ done, colSum col ≤ H) →
      ∀ col ∈ (balanceAux H target a pls done cur ch).dropLast, colSum col ≤ H := by
  intro pls
  induction pls with
  | nil =>
    intro done cur ch _ hcur hch hdone col hcol
    rw [balanceAux] at hcol
    cases cur with
    | nil =>
      simp only [List.isEmpty_nil, if_pos, List.append_nil] at hcol
      exact hdone col ((List.dropLast_sublist done).subset hcol)
    | cons q l =>
      simp only [List.isEmpty_cons, Bool.false_eq_true, if_false] at hcol
      rw [List.dropLast_concat] at hcol
      exact hdone col hcol
  | cons p rest ih =>
    intro done cur ch hpls hcur hch hdone col hcol
    obtain ⟨a0, h⟩ := p
    have hha : h ≤ H := hpls (a0, h) (by simp)
    have hrest : ∀ q ∈ rest, q.2 ≤ H := fun q hq => hpls q (by simp [hq])
    rw [balanceAux] at hcol
    split at hcol
    · rename_i hbrk
      refine ih (done ++ [cur]) [(a0, h)] h hrest (colSum_singleton _)
        (fun _ => hha) ?_ col hcol
      intro c hc
      rcases List.mem_append.mp hc with hc | hc
      · exact hdone c hc
      · rw [List.mem_singleton.mp hc, hcur]
        exact hch hbrk.2
    · rename_i hnobrk
      refine ih done (cur ++ [(a0, h)]) (ch + h) hrest
        (by rw [colSum_append_singleton, hcur]) ?_ hdone col hcol
      intro hlt
      have hnsb : ¬ ((0 < ch ∧ H < ch + h) ∨
          ((0 < ch ∧ target < ch + h) ∧ a - done.length ≤ rest.length + 1 ∧
            1 < a - done.length)) := by
        intro hsb
        exact hnobrk ⟨hsb, hlt⟩
      have hnmax : ¬ (0 < ch ∧ H < ch + h) := fun hmax => hnsb (Or.inl hmax)
      rcases le_or_lt ch 0 with hle | hpos
      · linarith
      · have := (not_and_or.mp hnmax).resolve_left (by exact fun hcon => hcon hpos)
        linarith [not_lt.mp this]

/-- Every balanced column of a page except the final one stays below the
container height. -/
theorem balancePage_dropLast_le {α : Type} (H : ℚ) (chunk : List (List (α × ℚ)))
    (hH : 0 ≤ H) (hlines : ∀ p ∈ chunk.flatten, p.2 ≤ H) :
    ∀ col ∈ (balancePage H chunk).dropLast, colSum col ≤ H := by
  unfold balancePage
  exact balanceAux_dropLast_le H _ _ chunk.flatten [] [] 0 hlines rfl
    (fun _ => hH) (by simp)

/-- C1, amended: with a positive column count, a non-negative container
height (the code clamps it with `Math.max(0, …)`) and every line height at
most the container height, every greedy column keeps its summed heights
within the container height, and in the balanced layout every column except
the final (pre-padding) column of its page does as well.  The final column
of a page can exceed the limit (see
`paginator_hard_limit_counterexample`). -/
theorem paginator_hard_limit_amended {α : Type} (items : List (α × ℚ)) (H : ℚ)
    (cols : ℕ) (hc : 0 < cols) (hH : 0 ≤ H) (hh : ∀ p ∈ items, p.2 ≤ H) :
    (∀ col ∈ greedyCols H items, colSum col ≤ H) ∧
    (∀ page ∈ paginateCore items H cols, ∀ col ∈ page.dropLast, colSum col ≤ H) := by
  constructor
  · exact greedyAux_cols_le H items [] 0 hh rfl hH
  · intro page hpage col hcol
    unfold paginateCore at hpage
    obtain ⟨chunk, hchunk, rfl⟩ := List.mem_map.mp hpage
    refine balancePage_dropLast_le H chunk hH ?_ col hcol
    intro p hp
    obtain ⟨col', hcol', hpc⟩ := List.mem_flatten.mp hp
    have hcolg : col' ∈ greedyCols H items :=
      chunksOf_mem cols hc _ col' chunk hchunk hcol'
    refine hh p ?_
    rw [← greedyCols_flatten H items]
    exact List.mem_flatten.mpr ⟨col', hcolg, hpc⟩

/-- Closed witness for the amended C1 at the counterexample input: the
greedy columns `[10, 60]`, `[60]` and the non-final balanced column `[10]`
all stay within the container height 100. -/
theorem paginator_hard_limit_amended_witness :
    (∀ col ∈ greedyCols (100 : ℚ) [((0 : ℕ), (10 : ℚ)), (1, 60), (2, 60)],
      colSum col ≤ 100) ∧
    (∀ page ∈ paginateCore [((0 : ℕ), (10 : ℚ)), (1, 60), (2, 60)] 100 2,
      ∀ col ∈ page.dropLast, colSum col ≤ 100) :=
  paginator_hard_limit_amended [((0 : ℕ), (10 : ℚ)), (1, 60), (2, 60)] 100 2
    (by norm_num) (by norm_num)
    (by
      intro p hp
      simp only [List.mem_cons, List.not_mem_nil, or_false] at hp
      rcases hp with rfl | rfl | rfl <;> norm_num)

/-! ## Transposition structure lemmas -/

/-- Inverse of the slash split: rejoining with slashes. -/
def joinSlash : List (List Char) → List Char
  | [] => []
  | [m] => m
  | m :: ms => m ++ '/' :: joinSlash ms

/-- The slash split never produces an empty part list. -/
theorem splitSlash_ne_nil (l : List Char) : splitSlash l ≠ [] := by
  cases l with
  | nil => simp [splitSlash]
  | cons c rest =>
    rw [splitSlash]
    split
    · simp
    · cases h : splitSlash rest <;> simp

/-- Rejoining the slash split restores the string. -/
theorem joinSlash_splitSlash (l : List Char) : joinSlash (splitSlash l) = l := by
  induction l with
  | nil => rfl
  | cons c rest ih =>
    rw [splitSlash]
    split
    · rename_i hc
      subst hc
      cases h : splitSlash rest with
      | nil => exact absurd h (splitSlash_ne_nil rest)
      | cons p ps =>
        rw [← h, joinSlash, ih]
        · rfl
        · rw [h]; simp
    · cases h : splitSlash rest with
      | nil => exact absurd h (splitSlash_ne_nil rest)
      | cons p ps =>
        rw [← ih]
        rw [h]
        cases ps with
        | nil => rfl
        | cons q qs => rfl

/-- The number of slash parts is one more than the slash count. -/
theorem splitSlash_length (l : List Char) :
    (splitSlash l).length = l.count '/' + 1 := by
  induction l with
  | nil => rfl
  | cons c rest ih =>
    rw [splitSlash]
    split
    · rename_i hc
      subst hc
      simp [ih, List.count_cons]
    · rename_i hc
      cases h : splitSlash rest with
      | nil => exact absurd h (splitSlash_ne_nil rest)
      | cons p ps =>
        rw [h] at ih
        simp only [List.length_cons] at ih ⊢
        simp [List.count_cons, hc, ih]

/-- Slash-split parts contain no slash. -/
theorem splitSlash_no_slash (l : List Char) :
    ∀ part ∈ splitSlash l, '/' ∉ part := by
  induction l with
  | nil =>
    intro part hp
    simp [splitSlash] at hp
    simp [hp]
  | cons c rest ih =>
    intro part hp
    rw [splitSlash] at hp
    split at hp
    · rcases List.mem_cons.mp hp with rfl | hmem
      · simp
      · exact ih part hmem
    · rename_i hc
      cases h : splitSlash rest with
      | nil => exact absurd h (splitSlash_ne_nil rest)
      | cons p ps =>
        rw [h] at hp
        rcases List.mem_cons.mp hp with rfl | hmem
        · intro hsl
          rcases List.mem_cons.mp hsl with hsl | hsl
          · exact hc hsl.symm
          · exact ih p (by rw [h]; simp) hsl
        · exact ih part (by rw [h]; simp [hmem])

/-- Splitting a string with exactly one slash separating slash-free
parts. -/
theorem splitSlash_append (A B : List Char) (hA : '/' ∉ A) (hB : '/' ∉ B) :
    splitSlash (A ++ '/' :: B) = [A, B] := by
  induction A with
  | nil =>
    have hsB : splitSlash B = [B] := by
      have hj := joinSlash_splitSlash B
      have hlen := splitSlash_length B
      rw [List.count_eq_zero_of_not_mem hB] at hlen
      cases h : splitSlash B with
      | nil => exact absurd h (splitSlash_ne_nil B)
      | cons p ps =>
        rw [h] at hlen hj
        simp only [List.length_cons] at hlen
        have hps : ps = [] := List.length_eq_zero.mp (by omega)
        subst hps
        rw [joinSlash] at hj
        rw [hj]
    show splitSlash ('/' :: B) = [[], B]
    rw [splitSlash, if_pos rfl, hsB]
  | cons a A' ih =>
    have ha : ¬ a = '/' := fun hx => hA (by simp [hx])
    have hA' : '/' ∉ A' := fun hx => hA (by simp [hx])
    rw [List.cons_append, splitSlash, if_neg ha, ih hA']

/-- The parsed root is a front of the main chord. -/
theorem rootOf_append (l r : List Char) (h : rootOf l = some r) :
    r ++ l.drop r.length = l := by
  match l with
  | [] => exact absurd h (by simp [rootOf])
  | [c] =>
    simp only [rootOf.eq_def] at h
    split at h
    · simp only [Option.some.injEq] at h
      subst h
      rfl
    · exact absurd h (by simp)
  | c :: d :: rest2 =>
    simp only [rootOf.eq_def] at h
    split at h
    · split at h <;> (simp only [Option.some.injEq] at h; subst h; rfl)
    · exact absurd h (by simp)

/-- A missing entry gives `indexOf? = none`. -/
theorem indexOf?_eq_none_of_not_mem (l : List String) (x : String) (h : x ∉ l) :
    l.indexOf? x = none := by
  unfold List.indexOf?
  rw [List.findIdx?_eq_none_iff]
  intro y hy
  simp only [beq_eq_false_iff_ne, ne_eq]
  rintro rfl
  exact h hy

/-- A note that is neither in the chromatic scale nor a recognized flat is
returned unchanged by `transposeNote`. -/
theorem transposeNote_unparseable (n : String) (k : Int)
    (hf : FLAT_TO_SHARP n = none) (hmem : n ∉ CHROMATIC_SCALE) :
    transposeNote n k = n := by
  unfold transposeNote getNoteIndex
  rw [hf]
  simp only [Option.getD_none]
  rw [indexOf?_eq_none_of_not_mem _ _ hmem]
  simp

/-- Transposing a note by 12 semitones restores its spelling, except for
the flats `Cb` and `Fb` whose renderings `B` and `E` have no flat
spelling. -/
theorem transposeNote_twelve (n : String) (h1 : n ≠ "Cb") (h2 : n ≠ "Fb") :
    transposeNote n 12 = n := by
  cases hf : FLAT_TO_SHARP n with
  | some m =>
    unfold FLAT_TO_SHARP at hf
    split at hf
    · decide
    · decide
    · exact absurd rfl (by assumption)
    · decide
    · decide
    · decide
    · exact absurd rfl (by assumption)
    · exact absurd hf (by simp)
  | none =>
    by_cases hmem : n ∈ CHROMATIC_SCALE
    · simp only [CHROMATIC_SCALE, List.mem_append, List.mem_cons, List.not_mem_nil,
        or_false] at hmem
      rcases hmem with (rfl|rfl|rfl|rfl|rfl|rfl)|rfl|rfl|rfl|rfl|rfl|rfl <;> decide
    · exact transposeNote_unparseable n 12 hf hmem

/-- Structure of a successfully parsed chord with at most one slash: the
string is root, suffix and an optional slash-separated bass. -/
theorem parseChord_structure (s : String) (p : ParsedChord)
    (hp : parseChord s = some p) (hslash : s.toList.count '/' ≤ 1) :
    (p.bass = none ∧ s.toList = p.root.toList ++ p.suffix.toList ∧
      '/' ∉ s.toList) ∨
    (∃ bL : List Char, p.bass = some bL.asString ∧
      s.toList = p.root.toList ++ p.suffix.toList ++ '/' :: bL ∧
      '/' ∉ p.root.toList ++ p.suffix.toList ∧ '/' ∉ bL) := by
  unfold parseChord at hp
  split at hp
  · exact absurd hp (by simp)
  · cases hsp : splitSlash s.toList with
    | nil => exact absurd hsp (splitSlash_ne_nil _)
    | cons main restParts =>
      rw [hsp] at hp
      dsimp only at hp
      cases hro : rootOf main with
      | none => rw [hro] at hp; exact absurd hp (by simp)
      | some rootL =>
        rw [hro] at hp
        dsimp only at hp
        simp only [Option.some.injEq] at hp
        subst hp
        have hjoin := joinSlash_splitSlash s.toList
        rw [hsp] at hjoin
        have hlen := splitSlash_length s.toList
        rw [hsp] at hlen
        simp only [List.length_cons] at hlen
        have hrest : restParts.length ≤ 1 := by omega
        have hmain : rootL ++ main.drop rootL.length = main :=
          rootOf_append main rootL hro
        have hmainns : '/' ∉ main :=
          splitSlash_no_slash s.toList main (by rw [hsp]; exact List.mem_cons_self _ _)
        cases restParts with
        | nil =>
          left
          refine ⟨rfl, ?_, ?_⟩
          · show s.toList = rootL ++ main.drop rootL.length
            rw [hmain]
            exact hjoin.symm
          · have hj2 : main = s.toList := hjoin
            rw [← hj2]
            exact hmainns
        | cons bL rest2 =>
          have hrest2 : rest2 = [] := by
            simp only [List.length_cons] at hrest
            exact List.length_eq_zero.mp (by omega)
          subst hrest2
          right
          refine ⟨bL, rfl, ?_, ?_, ?_⟩
          · show s.toList = rootL ++ main.drop rootL.length ++ '/' :: bL
            rw [List.append_assoc, ← List.append_assoc, hmain]
            have hj2 : main ++ '/' :: bL = s.toList := hjoin
            exact hj2.symm
          · show '/' ∉ rootL ++ main.drop rootL.length
            rw [hmain]
            exact hmainns
          · exact splitSlash_no_slash s.toList bL
              (by rw [hsp]; exact List.mem_cons_of_mem _ (List.mem_cons_self _ _))

/-- C5, amended: `transposeChord(chord, 12)` is character-identical to the
input for every chord that fails to parse, and for every parseable chord
with at most one slash, a non-empty bass part when a slash is present, and
root and bass not spelled `Cb` or `Fb` (see
`transposition_periodicity_counterexample` for the excluded spellings). -/
theorem transposition_periodicity_amended (s : String)
    (h : parseChord s = none ∨
      ∃ p, parseChord s = some p ∧ s.toList.count '/' ≤ 1 ∧
        p.root ≠ "Cb" ∧ p.root ≠ "Fb" ∧
        ∀ b, p.bass = some b → b ≠ "" ∧ b ≠ "Cb" ∧ b ≠ "Fb") :
    transposeChord s ((12 : ℤ) : ℚ) = s := by
  rw [transposeChord_intCast]
  rcases h with hnone | ⟨p, hp, hslash, hr1, hr2, hb⟩
  · unfold transposeChordK
    rw [hnone]
    split <;> rfl
  · unfold transposeChordK
    rw [if_neg (by norm_num), hp]
    dsimp only
    rcases parseChord_structure s p hp hslash with ⟨hbass, hs, -⟩ | ⟨bL, hbass, hs, -, -⟩
    · rw [hbass]
      dsimp only
      rw [transposeNote_twelve p.root hr1 hr2]
      apply String.ext
      show p.root.toList ++ p.suffix.toList = s.toList
      exact hs.symm
    · rw [hbass]
      dsimp only
      obtain ⟨hbne, hb1, hb2⟩ := hb bL.asString (by rw [hbass])
      rw [if_neg hbne]
      rw [transposeNote_twelve p.root hr1 hr2, transposeNote_twelve bL.asString hb1 hb2]
      apply String.ext
      show ((p.root.toList ++ p.suffix.toList) ++ ['/']) ++ bL = s.toList
      rw [hs]
      simp

/-- Closed witness for the amended C5: `"Am7/G"` is returned unchanged by a
12-semitone transposition. -/
theorem transposition_periodicity_amended_witness :
    transposeChord "Am7/G" ((12 : ℤ) : ℚ) = "Am7/G" :=
  transposition_periodicity_amended "Am7/G"
    (Or.inr ⟨⟨"A", "m7", some "G"⟩, by decide, by decide, by decide, by decide,
      fun b hb => by
        simp only [Option.some.injEq] at hb
        subst hb
        exact ⟨by decide, by decide, by decide⟩⟩)

/-- A slash-free string splits into a single part. -/
theorem splitSlash_no_slash_eq (l : List Char) (h : '/' ∉ l) : splitSlash l = [l] := by
  have hj := joinSlash_splitSlash l
  have hlen := splitSlash_length l
  rw [List.count_eq_zero_of_not_mem h] at hlen
  cases hs : splitSlash l with
  | nil => exact absurd hs (splitSlash_ne_nil l)
  | cons p ps =>
    rw [hs] at hlen hj
    simp only [List.length_cons] at hlen
    have hps : ps = [] := List.length_eq_zero.mp (by omega)
    subst hps
    rw [joinSlash] at hj
    rw [hj]

/-- Facts about the twelve scale entries, checked by evaluation: each entry
at index `j` has note index `j`, contains neither a flat letter nor a
slash, is non-empty, and is a scale member. -/
theorem scale_entry_facts :
    ∀ j : Fin 12,
      getNoteIndex (CHROMATIC_SCALE.getD j.val "") = (j.val : ℤ) ∧
      (CHROMATIC_SCALE.getD j.val "").toList.contains 'b' = false ∧
      '/' ∉ (CHROMATIC_SCALE.getD j.val "").toList ∧
      CHROMATIC_SCALE.getD j.val "" ≠ "" ∧
      CHROMATIC_SCALE.getD j.val "" ∈ CHROMATIC_SCALE := by
  decide

/-- Index, flat-freedom and recovery facts for a scale member. -/
theorem scale_mem_facts (note : String) (hmem : note ∈ CHROMATIC_SCALE) :
    0 ≤ getNoteIndex note ∧ getNoteIndex note < 12 ∧
    note.toList.contains 'b' = false ∧
    CHROMATIC_SCALE.getD (getNoteIndex note).toNat "" = note ∧
    '/' ∉ note.toList ∧ note ≠ "" := by
  simp only [CHROMATIC_SCALE, List.mem_append, List.mem_cons, List.not_mem_nil,
        or_false] at hmem
  rcases hmem with (rfl|rfl|rfl|rfl|rfl|rfl)|rfl|rfl|rfl|rfl|rfl|rfl <;> decide

/-- A note with a known non-negative index and no flat letter transposes to
the scale entry at the shifted, normalized index. -/
theorem transposeNote_mem (note : String) (k i : ℤ)
    (hidx : getNoteIndex note = i) (hflat : note.toList.contains 'b' = false)
    (hi : ¬ i = -1) :
    transposeNote note k = CHROMATIC_SCALE.getD (((i + k) % 12 + 12) % 12).toNat "" := by
  unfold transposeNote
  rw [hidx, hflat, if_neg hi]
  unfold getNoteAtIndex
  simp

/-- Normalizing twice is the same as normalizing once. -/
theorem posmod_idem (x : ℤ) : ((x % 12) + 12) % 12 = x % 12 := by omega

/-- Shifting an index by `k` and back lands on the original index. -/
theorem shift_unshift (i k : ℤ) (h0 : 0 ≤ i) (h12 : i < 12) :
    (((i + k) % 12) + -k) % 12 = i := by omega

/-- Re-parsing a scale note followed by a suffix that does not begin with an
ASCII accidental recovers exactly the note as root. -/
theorem rootOf_note_append (note : String) (hmem : note ∈ CHROMATIC_SCALE)
    (suf : List Char) (hsuf : ∀ d rest, suf = d :: rest → ¬(d = '#' ∨ d = 'b')) :
    rootOf (note.toList ++ suf) = some note.toList := by
  simp only [CHROMATIC_SCALE, List.mem_append, List.mem_cons, List.not_mem_nil,
        or_false] at hmem
  rcases hmem with (rfl|rfl|rfl|rfl|rfl|rfl)|rfl|rfl|rfl|rfl|rfl|rfl <;>
    first
    | (show rootOf (_ :: '#' :: suf) = _
       rw [rootOf]
       simp [isUpperRootChar])
    | (cases suf with
       | nil => decide
       | cons d rest =>
         show rootOf (_ :: d :: rest) = _
         rw [rootOf]
         rw [if_pos (by decide)]
         rw [if_neg (hsuf d rest rfl)]
         rfl)

/-- A string whose character list is non-empty is non-empty. -/
theorem string_ne_empty_of_toList (x : String) (h : x.toList ≠ []) : x ≠ "" := by
  intro hx
  exact h (by rw [hx]; rfl)

/-- C6, amended: the round trip `transpose(transpose(chord, n), -n)` is the
identity for every integer `n` and every chord that parses with canonically
spelled (natural or sharp) root and bass, whose suffix does not begin with
`#` or `b`, and which contains at most one slash.  A suffix beginning with
an accidental can be re-absorbed into the transposed root on re-parsing
(see `transposition_round_trip_counterexample`). -/
theorem transposition_round_trip_amended (s : String) (n : ℤ)
    (h : ∃ p, parseChord s = some p ∧ s.toList.count '/' ≤ 1 ∧
      p.root ∈ CHROMATIC_SCALE ∧
      (∀ d rest, p.suffix.toList = d :: rest → ¬(d = '#' ∨ d = 'b')) ∧
      (∀ b, p.bass = some b → b ∈ CHROMATIC_SCALE)) :
    transposeChord (transposeChord s ((n : ℤ) : ℚ)) ((-n : ℤ) : ℚ) = s := by
  rw [transposeChord_intCast, transposeChord_intCast]
  obtain ⟨p, hp, hslash, hroot, hsuf, hbassmem⟩ := h
  by_cases hn : n = 0
  · subst hn
    norm_num [transposeChordK]
  · obtain ⟨hi0, hi12, hflat, hrec, hnsl, hne⟩ := scale_mem_facts p.root hroot
    have hstep1 : transposeNote p.root n =
        CHROMATIC_SCALE.getD (((getNoteIndex p.root + n) % 12 + 12) % 12).toNat "" :=
      transposeNote_mem p.root n _ rfl hflat (by omega)
    rw [posmod_idem] at hstep1
    have hm0 : (0 : ℤ) ≤ (getNoteIndex p.root + n) % 12 :=
      Int.emod_nonneg _ (by norm_num)
    have hm12 : (getNoteIndex p.root + n) % 12 < 12 :=
      Int.emod_lt_of_pos _ (by norm_num)
    have hfin : ((getNoteIndex p.root + n) % 12).toNat < 12 := by omega
    obtain ⟨hidx', hflat', hnsl', hne', hmem'⟩ :=
      scale_entry_facts ⟨((getNoteIndex p.root + n) % 12).toNat, hfin⟩
    rw [Int.toNat_of_nonneg hm0] at hidx'
    have hback : transposeNote
        (CHROMATIC_SCALE.getD ((getNoteIndex p.root + n) % 12).toNat "") (-n) = p.root := by
      rw [transposeNote_mem _ (-n) _ hidx' hflat' (by omega)]
      rw [posmod_idem, shift_unshift _ n hi0 hi12]
      exact hrec
    rcases parseChord_structure s p hp hslash with
      ⟨hbassn, hs, hnosl⟩ | ⟨bL, hbassb, hs, hnosl1, hnosl2⟩
    · -- no bass note
      have hsufns : '/' ∉ p.suffix.toList := fun hx =>
        hnosl (by rw [hs]; exact List.mem_append.mpr (Or.inr hx))
      have hres1 : transposeChordK s n =
          CHROMATIC_SCALE.getD ((getNoteIndex p.root + n) % 12).toNat "" ++ p.suffix := by
        unfold transposeChordK
        rw [if_neg hn, hp]
        dsimp only
        rw [hbassn]
        dsimp only
        rw [hstep1]
      have hparse2 : parseChord
          (CHROMATIC_SCALE.getD ((getNoteIndex p.root + n) % 12).toNat "" ++ p.suffix) =
          some ⟨CHROMATIC_SCALE.getD ((getNoteIndex p.root + n) % 12).toNat "",
                p.suffix, none⟩ := by
        unfold parseChord
        rw [if_neg (string_ne_empty_of_toList _ (by
          show (CHROMATIC_SCALE.getD ((getNoteIndex p.root + n) % 12).toNat "").toList
            ++ p.suffix.toList ≠ []
          simp only [ne_eq, List.append_eq_nil, not_and]
          intro hq
          exact absurd (String.ext hq) hne'))]
        rw [show (CHROMATIC_SCALE.getD ((getNoteIndex p.root + n) % 12).toNat "" ++
            p.suffix).toList =
            (CHROMATIC_SCALE.getD ((getNoteIndex p.root + n) % 12).toNat "").toList ++
            p.suffix.toList from rfl]
        rw [splitSlash_no_slash_eq _ (by
          intro hx
          rcases List.mem_append.mp hx with hx | hx
          · exact hnsl' hx
          · exact hsufns hx)]
        dsimp only
        rw [rootOf_note_append _ hmem' p.suffix.toList hsuf]
        dsimp only
        rw [List.drop_left]
        rfl
      rw [hres1]
      unfold transposeChordK
      rw [if_neg (by omega), hparse2]
      dsimp only
      rw [hback]
      apply String.ext
      show p.root.toList ++ p.suffix.toList = s.toList
      exact hs.symm
    · -- slash chord with a bass note
      have hbmem : bL.asString ∈ CHROMATIC_SCALE := hbassmem bL.asString hbassb
      obtain ⟨hbi0, hbi12, hbflat, hbrec, hbnsl, hbne⟩ := scale_mem_facts bL.asString hbmem
      have hbstep1 : transposeNote bL.asString n =
          CHROMATIC_SCALE.getD (((getNoteIndex bL.asString + n) % 12 + 12) % 12).toNat "" :=
        transposeNote_mem bL.asString n _ rfl hbflat (by omega)
      rw [posmod_idem] at hbstep1
      have hbm0 : (0 : ℤ) ≤ (getNoteIndex bL.asString + n) % 12 :=
        Int.emod_nonneg _ (by norm_num)
      have hbm12 : (getNoteIndex bL.asString + n) % 12 < 12 :=
        Int.emod_lt_of_pos _ (by norm_num)
      have hbfin : ((getNoteIndex bL.asString + n) % 12).toNat < 12 := by omega
      obtain ⟨hbidx', hbflat', hbnsl', hbne', hbmem'⟩ :=
        scale_entry_facts ⟨((getNoteIndex bL.asString + n) % 12).toNat, hbfin⟩
      rw [Int.toNat_of_nonneg hbm0] at hbidx'
      have hbback : transposeNote
          (CHROMATIC_SCALE.getD ((getNoteIndex bL.asString + n) % 12).toNat "") (-n) =
          bL.asString := by
        rw [transposeNote_mem _ (-n) _ hbidx' hbflat' (by omega)]
        rw [posmod_idem, shift_unshift _ n hbi0 hbi12]
        exact hbrec
      have hsufns : '/' ∉ p.suffix.toList := fun hx =>
        hnosl1 (List.mem_append.mpr (Or.inr hx))
      have hres1 : transposeChordK s n =
          CHROMATIC_SCALE.getD ((getNoteIndex p.root + n) % 12).toNat "" ++ p.suffix ++
            "/" ++ CHROMATIC_SCALE.getD ((getNoteIndex bL.asString + n) % 12).toNat "" := by
        unfold transposeChordK
        rw [if_neg hn, hp]
        dsimp only
        rw [hbassb]
        dsimp only
        rw [if_neg hbne, hstep1, hbstep1]
      have hparse2 : parseChord
          (CHROMATIC_SCALE.getD ((getNoteIndex p.root + n) % 12).toNat "" ++ p.suffix ++
            "/" ++ CHROMATIC_SCALE.getD ((getNoteIndex bL.asString + n) % 12).toNat "") =
          some ⟨CHROMATIC_SCALE.getD ((getNoteIndex p.root + n) % 12).toNat "",
                p.suffix,
                some (CHROMATIC_SCALE.getD ((getNoteIndex bL.asString + n) % 12).toNat "")⟩ := by
        unfold parseChord
        rw [if_neg (string_ne_empty_of_toList _ (by
          show ((CHROMATIC_SCALE.getD ((getNoteIndex p.root + n) % 12).toNat "").toList
            ++ p.suffix.toList ++ ['/'] ++ _) ≠ []
          simp))]
        rw [show (CHROMATIC_SCALE.getD ((getNoteIndex p.root + n) % 12).toNat "" ++ p.suffix ++
            "/" ++ CHROMATIC_SCALE.getD ((getNoteIndex bL.asString + n) % 12).toNat "").toList =
            ((CHROMATIC_SCALE.getD ((getNoteIndex p.root + n) % 12).toNat "").toList ++
              p.suffix.toList) ++ '/' ::
              (CHROMATIC_SCALE.getD ((getNoteIndex bL.asString + n) % 12).toNat "").toList
            from by simp]
        rw [splitSlash_append _ _ (by
          intro hx
          rcases List.mem_append.mp hx with hx | hx
          · exact hnsl' hx
          · exact hsufns hx) hbnsl']
        dsimp only
        rw [rootOf_note_append _ hmem' p.suffix.toList hsuf]
        dsimp only
        rw [List.drop_left]
        rfl
      rw [hres1]
      unfold transposeChordK
      rw [if_neg (by omega), hparse2]
      dsimp only
      rw [if_neg hbne', hback, hbback]
      apply String.ext
      show ((p.root.toList ++ p.suffix.toList) ++ ['/']) ++ bL = s.toList
      rw [hs]
      simp

/-- Closed witness for the amended C6: transposing `"Am7/G"` up three
semitones and back restores it. -/
theorem transposition_round_trip_amended_witness :
    transposeChord (transposeChord "Am7/G" ((3 : ℤ) : ℚ)) ((-3 : ℤ) : ℚ) = "Am7/G" :=
  transposition_round_trip_amended "Am7/G" 3
    ⟨⟨"A", "m7", some "G"⟩, by decide, by decide, by decide,
     fun d rest hdr => by
       simp only [show ("m7" : String).toList = ['m', '7'] from rfl,
         List.cons.injEq] at hdr
       obtain ⟨rfl, -⟩ := hdr
       decide,
     fun b hb => by
       simp only [Option.some.injEq] at hb
       subst hb
       decide⟩

/-! ## Scanner token lemmas -/

/-- Accidental characters are not separators. -/
theorem isAccChar_not_sep (d : Char) (h : isAccChar d = true) : isSepChar d = false := by
  unfold isAccChar at h
  simp only [Bool.decide_or, Bool.or_eq_true, decide_eq_true_eq] at h
  rcases h with rfl | rfl | rfl | rfl <;> decide

/-- Appending one character preserves a character predicate. -/
theorem chars_append_one (P : Char → Prop) (cur : List Char) (c : Char)
    (h : ∀ ch ∈ cur, P ch) (hc : P c) : ∀ ch ∈ cur ++ [c], P ch := by
  intro ch hch
  rcases List.mem_append.mp hch with hch | hch
  · exact h ch hch
  · rw [List.mem_singleton.mp hch]; exact hc

/-- Appending two characters preserves a character predicate. -/
theorem chars_append_two (P : Char → Prop) (cur : List Char) (c d : Char)
    (h : ∀ ch ∈ cur, P ch) (hc : P c) (hd : P d) : ∀ ch ∈ cur ++ [c, d], P ch := by
  intro ch hch
  rcases List.mem_append.mp hch with hch | hch
  · exact h ch hch
  · rcases List.mem_cons.mp hch with rfl | hch
    · exact hc
    · rw [List.mem_singleton.mp hch]; exact hd

/-- The flushed final token of a scan is non-empty and keeps the
accumulated token's property. -/
theorem flush_tokens (cur : List Char) (Q : List Char → Prop)
    (hq : cur ≠ [] → Q cur) :
    ∀ tok ∈ (if cur.isEmpty then ([] : List (List Char)) else [cur]), Q tok := by
  split
  · simp
  · rename_i hne
    intro tok htok
    rw [List.mem_singleton.mp htok]
    exact hq (by simpa using hne)

/-- Every token of the segmenter's scanner is non-empty and consists of
non-separator characters, provided the accumulated token does. -/
theorem normScanF_token_chars :
    ∀ (fuel : ℕ) (p : Option Char) (cur l : List Char),
      (∀ ch ∈ cur, isSepChar ch = false) →
      ∀ tok ∈ normScanF fuel p cur l, tok ≠ [] ∧ ∀ ch ∈ tok, isSepChar ch = false := by
  intro fuel
  induction fuel with
  | zero =>
    intro p cur l hcur tok htok
    have hfl := flush_tokens cur (fun m => m ≠ [] ∧ ∀ ch ∈ m, isSepChar ch = false)
      (fun hne => ⟨hne, hcur⟩)
    cases l with
    | nil => rw [normScanF] at htok; exact hfl tok htok
    | cons c rest => rw [normScanF] at htok; exact hfl tok htok
  | succ fuel ih =>
    intro p cur l hcur tok htok
    cases l with
    | nil =>
      have hfl := flush_tokens cur (fun m => m ≠ [] ∧ ∀ ch ∈ m, isSepChar ch = false)
        (fun hne => ⟨hne, hcur⟩)
      rw [normScanF] at htok
      exact hfl tok htok
    | cons c rest =>
      cases rest with
      | nil =>
        rw [normScanF] at htok
        by_cases hsep : isSepChar c = true
        · rw [if_pos hsep] at htok
          by_cases hce : cur.isEmpty = true
          · rw [if_pos hce] at htok
            exact ih (some c) [] [] (by simp) tok htok
          · rw [if_neg hce] at htok
            rcases List.mem_cons.mp htok with rfl | hmem
            · exact ⟨fun hnil => hce (by rw [hnil]; rfl), hcur⟩
            · exact ih (some c) [] [] (by simp) tok hmem
        · rw [if_neg hsep] at htok
          have hc : isSepChar c = false := by simpa using hsep
          by_cases hup : isUpperRootChar c = true
          · rw [if_pos hup] at htok
            by_cases hcc : (!cur.isEmpty && !isSlashOpt p) = true
            · rw [if_pos hcc, if_pos hcc] at htok
              have hcne : cur ≠ [] := by
                intro hnil
                subst hnil
                simp at hcc
              rcases List.mem_append.mp htok with hmem | hmem
              · rw [List.mem_singleton.mp hmem]
                exact ⟨hcne, hcur⟩
              · exact ih (some c) ([] ++ [c]) []
                  (chars_append_one _ [] c (by simp) hc) tok hmem
            · rw [if_neg hcc, if_neg hcc, List.nil_append] at htok
              exact ih (some c) (cur ++ [c]) []
                (chars_append_one _ cur c hcur hc) tok htok
          · rw [if_neg hup] at htok
            by_cases hsl : c = '/'
            · rw [if_pos hsl] at htok
              exact ih (some c) (cur ++ [c]) []
                (chars_append_one _ cur c hcur hc) tok htok
            · rw [if_neg hsl] at htok
              by_cases haln : ('a' ≤ c ∧ c ≤ 'z') ∨ ('A' ≤ c ∧ c ≤ 'Z') ∨ isDigitChar c
              · rw [if_pos haln] at htok
                exact ih (some c) (cur ++ [c]) []
                  (chars_append_one _ cur c hcur hc) tok htok
              · rw [if_neg haln] at htok
                exact ih (some c) cur [] hcur tok htok
      | cons d rest2 =>
        rw [normScanF] at htok
        by_cases hsep : isSepChar c = true
        · rw [if_pos hsep] at htok
          by_cases hce : cur.isEmpty = true
          · rw [if_pos hce] at htok
            exact ih (some c) [] (d :: rest2) (by simp) tok htok
          · rw [if_neg hce] at htok
            rcases List.mem_cons.mp htok with rfl | hmem
            · exact ⟨fun hnil => hce (by rw [hnil]; rfl), hcur⟩
            · exact ih (some c) [] (d :: rest2) (by simp) tok hmem
        · rw [if_neg hsep] at htok
          have hc : isSepChar c = false := by simpa using hsep
          by_cases hup : isUpperRootChar c = true
          · rw [if_pos hup] at htok
            by_cases hcc : (!cur.isEmpty && !isSlashOpt p) = true
            · rw [if_pos hcc, if_pos hcc] at htok
              have hcne : cur ≠ [] := by
                intro hnil
                subst hnil
                simp at hcc
              by_cases hacc : isAccChar d = true
              · rw [if_pos hacc] at htok
                rcases List.mem_append.mp htok with hmem | hmem
                · rw [List.mem_singleton.mp hmem]
                  exact ⟨hcne, hcur⟩
                · exact ih (some d) ([] ++ [c, d]) rest2
                    (chars_append_two _ [] c d (by simp) hc (isAccChar_not_sep d hacc))
                    tok hmem
              · rw [if_neg hacc] at htok
                rcases List.mem_append.mp htok with hmem | hmem
                · rw [List.mem_singleton.mp hmem]
                  exact ⟨hcne, hcur⟩
                · exact ih (some c) ([] ++ [c]) (d :: rest2)
                    (chars_append_one _ [] c (by simp) hc) tok hmem
            · rw [if_neg hcc, if_neg hcc] at htok
              by_cases hacc : isAccChar d = true
              · rw [if_pos hacc, List.nil_append] at htok
                exact ih (some d) (cur ++ [c, d]) rest2
                  (chars_append_two _ cur c d hcur hc (isAccChar_not_sep d hacc)) tok htok
              · rw [if_neg hacc, List.nil_append] at htok
                exact ih (some c) (cur ++ [c]) (d :: rest2)
                  (chars_append_one _ cur c hcur hc) tok htok
          · rw [if_neg hup] at htok
            by_cases hsl : c = '/'
            · rw [if_pos hsl] at htok
              exact ih (some c) (cur ++ [c]) (d :: rest2)
                (chars_append_one _ cur c hcur hc) tok htok
            · rw [if_neg hsl] at htok
              by_cases haln : ('a' ≤ c ∧ c ≤ 'z') ∨ ('A' ≤ c ∧ c ≤ 'Z') ∨ isDigitChar c
              · rw [if_pos haln] at htok
                exact ih (some c) (cur ++ [c]) (d :: rest2)
                  (chars_append_one _ cur c hcur hc) tok htok
              · rw [if_neg haln] at htok
                exact ih (some c) cur (d :: rest2) hcur tok htok

/-- Every token produced by `normalizeChordTokens` is non-empty and free of
separator characters (in particular it is not the non-breaking space). -/
theorem normalizeChordTokens_tokens (label : String) :
    ∀ t ∈ normalizeChordTokens label, t ≠ "" ∧ t ≠ nbspString := by
  intro t ht
  unfold normalizeChordTokens at ht
  obtain ⟨tok, htok, rfl⟩ := List.mem_map.mp ht
  obtain ⟨hne, hchars⟩ := normScanF_token_chars _ none [] _ (by simp) tok htok
  constructor
  · intro hq
    exact hne (by simpa using congrArg String.toList hq)
  · intro hq
    have : tok = [nbspChar] := by simpa using congrArg String.toList hq
    subst this
    have h2 := hchars nbspChar (by simp)
    have h3 : isSepChar nbspChar = true := by decide
    rw [h3] at h2
    exact absurd h2 (by decide)

/-- Every rendering of `getNoteAtIndex` begins with an uppercase note
letter. -/
theorem getNoteAtIndex_head (v : ℤ) (pf : Bool) :
    ∃ c tail, (getNoteAtIndex v pf).toList = c :: tail ∧ isUpperRootChar c = true := by
  simp only [getNoteAtIndex]
  have h12 : (((v % 12) + 12) % 12).toNat < 12 := by omega
  generalize (((v % 12) + 12) % 12).toNat = j at h12 ⊢
  interval_cases j <;> cases pf <;> exact ⟨_, _, rfl, by decide⟩

/-- The root recognized by `rootOf` begins with an uppercase note
letter. -/
theorem rootOf_shape (l r : List Char) (h : rootOf l = some r) :
    ∃ c tail, r = c :: tail ∧ isUpperRootChar c = true := by
  match l with
  | [] => exact absurd h (by simp [rootOf])
  | [c] =>
    simp only [rootOf.eq_def] at h
    split at h
    · simp only [Option.some.injEq] at h
      exact ⟨c, [], h.symm, by assumption⟩
    · exact absurd h (by simp)
  | c :: d :: rest2 =>
    simp only [rootOf.eq_def] at h
    split at h
    · split at h <;> simp only [Option.some.injEq] at h
      · exact ⟨c, [d], h.symm, by assumption⟩
      · exact ⟨c, [], h.symm, by assumption⟩
    · exact absurd h (by simp)

/-- The root of a successfully parsed chord begins with an uppercase note
letter. -/
theorem parseChord_root_shape (s : String) (p : ParsedChord)
    (hp : parseChord s = some p) :
    ∃ c tail, p.root.toList = c :: tail ∧ isUpperRootChar c = true := by
  unfold parseChord at hp
  split at hp
  · exact absurd hp (by simp)
  · cases hsp : splitSlash s.toList with
    | nil => exact absurd hsp (splitSlash_ne_nil _)
    | cons main restParts =>
      rw [hsp] at hp
      dsimp only at hp
      cases hro : rootOf main with
      | none => rw [hro] at hp; exact absurd hp (by simp)
      | some rootL =>
        rw [hro] at hp
        dsimp only at hp
        simp only [Option.some.injEq] at hp
        subst hp
        exact rootOf_shape main rootL hro

/-- A transposed parsed root begins with an uppercase note letter. -/
theorem transposeNote_head (root : String) (k : ℤ) (c0 : Char) (tail0 : List Char)
    (hshape : root.toList = c0 :: tail0) (hup : isUpperRootChar c0 = true) :
    ∃ c tail, (transposeNote root k).toList = c :: tail ∧ isUpperRootChar c = true := by
  simp only [transposeNote]
  split
  · exact ⟨c0, tail0, hshape, hup⟩
  · exact getNoteAtIndex_head _ _

/-- A string beginning with an uppercase note letter is not the
non-breaking-space placeholder. -/
theorem string_head_upper_ne_nbsp (s : String) (c : Char) (tail : List Char)
    (h : s.toList = c :: tail) (hc : isUpperRootChar c = true) : s ≠ nbspString := by
  intro heq
  subst heq
  have : c = nbspChar := by
    have h2 : ([nbspChar] : List Char) = c :: tail := h
    exact (List.cons.injEq _ _ _ _ ▸ h2).1.symm
  subst this
  exact absurd hc (by decide)

/-- Transposing a chord never produces the non-breaking-space placeholder
from an input that is not itself the placeholder. -/
theorem transposeChordK_ne_nbsp (t : String) (k : ℤ) (ht : t ≠ nbspString) :
    transposeChordK t k ≠ nbspString := by
  by_cases hk : k = 0
  · unfold transposeChordK
    rw [if_pos hk]
    exact ht
  · unfold transposeChordK
    rw [if_neg hk]
    cases hp : parseChord t with
    | none => exact ht
    | some p =>
      dsimp only
      obtain ⟨c0, tail0, hshape, hup⟩ := parseChord_root_shape t p hp
      obtain ⟨c, tl, hh, hu⟩ := transposeNote_head p.root k c0 tail0 hshape hup
      cases hb : p.bass with
      | none =>
        dsimp only
        refine string_head_upper_ne_nbsp _ c (tl ++ p.suffix.toList) ?_ hu
        show (transposeNote p.root k).toList ++ p.suffix.toList = _
        rw [hh]
        rfl
      | some b =>
        dsimp only
        by_cases hbe : b = ""
        · rw [if_pos hbe]
          refine string_head_upper_ne_nbsp _ c (tl ++ p.suffix.toList) ?_ hu
          show (transposeNote p.root k).toList ++ p.suffix.toList = _
          rw [hh]
          rfl
        · rw [if_neg hbe]
          have h1 : (transposeNote p.root k ++ p.suffix ++ "/" ++ transposeNote b k).toList
              = c :: (tl ++ (p.suffix.toList ++ '/' :: (transposeNote b k).toList)) := by
            have h0 : (transposeNote p.root k ++ p.suffix ++ "/" ++ transposeNote b k).toList
                = (((transposeNote p.root k).toList ++ p.suffix.toList) ++ ['/']) ++
                  (transposeNote b k).toList := rfl
            rw [h0, hh]
            simp
          exact string_head_upper_ne_nbsp _ c _ h1 hu

/-- Number of real (non-placeholder) chord labels attached to a segment: a
chord-less segment counts zero, and the single non-breaking-space
placeholder shown for a group whose label list came out empty also counts
zero. -/
def realLabelsOf (s : Segment) : ℕ :=
  match s.chordTokens with
  | none => 0
  | some ls => if ls = [nbspString] then 0 else ls.length

/-- Total number of real chord labels across a segment list. -/
def realLabelCount (segs : List Segment) : ℕ :=
  (segs.map realLabelsOf).sum

/-- The label count distributes over list append. -/
theorem realLabelCount_append (a b : List Segment) :
    realLabelCount (a ++ b) = realLabelCount a + realLabelCount b := by
  simp [realLabelCount]

/-- The label count of a cons. -/
theorem realLabelCount_cons (s : Segment) (t : List Segment) :
    realLabelCount (s :: t) = realLabelsOf s + realLabelCount t := by
  simp [realLabelCount]

/-- An optional chord-less gap segment contributes no labels. -/
theorem realLabelCount_gap (b : Prop) [Decidable b] (t : List Char) :
    realLabelCount (if b then [(⟨t, none⟩ : Segment)] else []) = 0 := by
  split <;> simp [realLabelCount, realLabelsOf]

/-- A group segment carries exactly its computed labels, once the empty
list is read back through the placeholder. -/
theorem realLabelsOf_group (labels : List String) (text : List Char)
    (hne : nbspString ∉ labels) :
    realLabelsOf ⟨text, some (if labels.isEmpty then [nbspString] else labels)⟩
      = labels.length := by
  rcases labels with _ | ⟨l, ls⟩
  · simp [realLabelsOf]
  · have hne2 : l :: ls ≠ [nbspString] := by
      intro heq
      rw [heq] at hne
      exact hne (List.mem_singleton.mpr rfl)
    simp [realLabelsOf, hne2]

/-- The labels computed for a chord group never contain the placeholder. -/
theorem group_labels_no_nbsp (k : Int) (cs : List ChordPosition) :
    nbspString ∉ cs.flatMap (fun d => transposeChordLabel d.chord k) := by
  intro hmem
  rw [List.mem_flatMap] at hmem
  obtain ⟨d, _, hmem2⟩ := hmem
  rw [transposeChordLabel] at hmem2
  obtain ⟨t, ht, heq⟩ := List.mem_map.mp hmem2
  exact transposeChordK_ne_nbsp t k (normalizeChordTokens_tokens _ t ht).2 heq

/-- A chord group contributes one label per normalized token of each of
its entries. -/
theorem group_labels_length (k : Int) (cs : List ChordPosition) :
    (cs.flatMap (fun d => transposeChordLabel d.chord k)).length
      = (cs.map (fun c => (normalizeChordTokens c.chord).length)).sum := by
  rw [List.length_flatMap]
  congr 1
  congr 1
  funext d
  simp [Function.comp, transposeChordLabel]

/-- Main induction for C4: every pass of the segment loop emits exactly as
many real labels as the normalized token counts of the chords it
consumes. -/
theorem segsAuxF_label_count (lyr : List Char) (k : Int) :
    ∀ (fuel : ℕ) (cs : List ChordPosition) (lastEnd : ℕ), cs.length ≤ fuel →
      realLabelCount (segsAuxF lyr k fuel cs lastEnd)
        = (cs.map (fun c => (normalizeChordTokens c.chord).length)).sum := by
  intro fuel
  induction fuel with
  | zero =>
    intro cs lastEnd hlen
    have hcs : cs = [] := List.length_eq_zero.mp (Nat.le_zero.mp hlen)
    subst hcs
    rw [segsAuxF]
    split <;> simp [realLabelCount, realLabelsOf]
  | succ fuel ih =>
    intro cs lastEnd hlen
    cases cs with
    | nil =>
      rw [segsAuxF]
      split <;> simp [realLabelCount, realLabelsOf]
    | cons c rest =>
      have hdrop : ∀ (P : ChordPosition → Bool), (rest.dropWhile P).length ≤ fuel := by
        intro P
        have h1 : (rest.dropWhile P).length ≤ rest.length :=
          (List.dropWhile_sublist _).length_le
        have h2 : rest.length + 1 ≤ fuel + 1 := by simpa using hlen
        omega
      simp only [segsAuxF]
      rw [realLabelCount_append, realLabelCount_cons, realLabelCount_gap,
        realLabelsOf_group _ _ (group_labels_no_nbsp k _),
        ih _ _ (hdrop _), group_labels_length]
      conv_rhs => rw [← List.takeWhile_append_dropWhile
        (p := fun d => computeSnappedAt lyr lastEnd d.pos ==
          computeSnappedAt lyr lastEnd c.pos) (l := rest)]
      rw [List.map_cons, List.sum_cons, List.map_cons, List.map_append,
        List.sum_cons, List.sum_append]
      omega

/-- CLAIM C4 (corrected): for every non-empty lyrics string, the total
number of real chord labels across the output segments (not counting the
single non-breaking-space placeholder shown for a group whose labels are
empty) equals the sum over the input `ChordPosition` entries of the number
of tokens `normalizeChordTokens` extracts from that entry's chord string;
merging never drops a token, but one entry can contribute zero or several
labels. -/
theorem segmenter_chord_count_amended (lyr : List Char) (chords : List ChordPosition)
    (k : Int) (hlyr : lyr ≠ []) :
    realLabelCount (segments lyr chords k)
      = (chords.map (fun c => (normalizeChordTokens c.chord).length)).sum := by
  rw [segments, if_neg (by simpa using hlyr)]
  by_cases hc : chords.isEmpty
  · rw [if_pos hc]
    rw [List.isEmpty_iff] at hc
    subst hc
    simp [realLabelCount, realLabelsOf]
  · rw [if_neg hc, segsAux, segsAuxF_label_count lyr k _ _ _ le_rfl]
    exact List.Perm.sum_eq ((List.perm_insertionSort _ chords).map _)

/-- Witness for C4 at lyrics `"ab"` with the single glued entry `"E7Am"`
at offset 0: two labels are emitted for one entry. -/
theorem segmenter_chord_count_amended_witness :
    ("ab".toList ≠ []) ∧
      realLabelCount (segments "ab".toList [⟨"E7Am", 0⟩] 0)
        = (([⟨"E7Am", 0⟩] : List ChordPosition).map
            (fun c => (normalizeChordTokens c.chord).length)).sum :=
  ⟨by decide, segmenter_chord_count_amended "ab".toList [⟨"E7Am", 0⟩] 0 (by decide)⟩

/-- The decoded concatenation of an empty segment list. -/
theorem decodedConcat_nil : decodedConcat [] = [] := rfl

/-- The decoded concatenation of a cons. -/
theorem decodedConcat_cons (s : Segment) (t : List Segment) :
    decodedConcat (s :: t) = segTextDecoded s ++ decodedConcat t := by
  simp [decodedConcat]

/-- The decoded concatenation distributes over append. -/
theorem decodedConcat_append (a b : List Segment) :
    decodedConcat (a ++ b) = decodedConcat a ++ decodedConcat b := by
  simp [decodedConcat]

/-- Every character of a slice comes from the sliced list. -/
theorem mem_sliceL (lyr : List Char) (a b : ℕ) :
    ∀ ch ∈ sliceL lyr a b, ch ∈ lyr := by
  intro ch h
  rw [sliceL] at h
  exact List.mem_of_mem_drop (List.mem_of_mem_take h)

/-- Every character of a right-trimmed list comes from the list. -/
theorem mem_trimEndChars (l : List Char) : ∀ ch ∈ trimEndChars l, ch ∈ l := by
  intro ch h
  rw [trimEndChars, List.mem_reverse] at h
  exact List.mem_reverse.mp ((List.dropWhile_sublist _).subset h)

/-- A segment whose text draws only on non-breaking-space-free lyrics
decodes to that text. -/
theorem segTextDecoded_sub (lyr : List Char) (hn : nbspChar ∉ lyr) (s : List Char)
    (hs : ∀ ch ∈ s, ch ∈ lyr) (ct : Option (List String)) :
    segTextDecoded ⟨s, ct⟩ = s := by
  rw [segTextDecoded]
  rcases eq_or_ne s [nbspChar] with heq | hne
  · exact absurd (hs nbspChar (by simp [heq])) hn
  · rw [if_neg hne]

/-- The emitted segment text (empty texts replaced by the placeholder)
decodes back to the raw text when the lyrics are
non-breaking-space-free. -/
theorem segTextDecoded_emit (lyr : List Char) (hn : nbspChar ∉ lyr) (s : List Char)
    (hs : ∀ ch ∈ s, ch ∈ lyr) (ct : Option (List String)) :
    segTextDecoded ⟨if s.isEmpty then [nbspChar] else s, ct⟩ = s := by
  rcases eq_or_ne s [] with rfl | hne
  · simp [segTextDecoded]
  · rw [if_neg (by simpa using hne)]
    exact segTextDecoded_sub lyr hn s hs ct

/-- An optional gap segment decodes to its slice. -/
theorem decodedConcat_gapSeg (lyr : List Char) (hn : nbspChar ∉ lyr) (a b : ℕ)
    (cond : Prop) [Decidable cond] :
    decodedConcat (if cond then [(⟨sliceL lyr a b, none⟩ : Segment)] else [])
      = if cond then sliceL lyr a b else [] := by
  split
  · rw [decodedConcat_cons, decodedConcat_nil, List.append_nil,
      segTextDecoded_sub lyr hn _ (mem_sliceL lyr a b) none]
  · rfl

/-- Right-trimming only removes a whitespace suffix: the removed suffix is
whitespace-only and reattaching it restores the list. -/
theorem trimEndChars_reconstruct (l : List Char) :
    (∀ ch ∈ (l.reverse.takeWhile isJsWhite).reverse, isJsWhite ch = true) ∧
      trimEndChars l ++ (l.reverse.takeWhile isJsWhite).reverse = l := by
  constructor
  · intro ch hch
    rw [List.mem_reverse] at hch
    exact List.mem_takeWhile_imp hch
  · rw [trimEndChars, ← List.reverse_append, List.takeWhile_append_dropWhile,
      List.reverse_reverse]

/-- The clamp of a raw chord offset into `[0, lyrics.length]` (the
`clampedAt` computation of `computeSnappedAt`). -/
def clampN (lyr : List Char) (pos : Int) : ℕ :=
  (min (max 0 pos) (lyr.length : Int)).toNat

/-- The clamped offset stays within the lyrics. -/
theorem clampN_le (lyr : List Char) (pos : Int) : clampN lyr pos ≤ lyr.length := by
  rw [clampN]; omega

/-- Clamping is monotone. -/
theorem clampN_mono (lyr : List Char) {p q : Int} (h : p ≤ q) :
    clampN lyr p ≤ clampN lyr q := by
  rw [clampN, clampN]; omega

/-- The snapped offset lies between the previous segment end and the
clamped raw offset, provided the previous end does not already pass the
clamped offset. -/
theorem computeSnappedAt_bounds (lyr : List Char) (lastEnd : ℕ) (pos : Int)
    (h : lastEnd ≤ clampN lyr pos) :
    lastEnd ≤ computeSnappedAt lyr lastEnd pos ∧
      computeSnappedAt lyr lastEnd pos ≤ clampN lyr pos := by
  rw [clampN] at h ⊢
  simp only [computeSnappedAt]
  split <;> split <;> omega

/-- Bounds for the next segment boundary `clampedNext`. -/
theorem clampedNext_bounds (lyr : List Char) (S : ℕ) (q : Int)
    (hS : S ≤ lyr.length) (h : S ≤ clampN lyr q) :
    S ≤ (min (max (S : Int) q) (lyr.length : Int)).toNat ∧
      (min (max (S : Int) q) (lyr.length : Int)).toNat ≤ lyr.length ∧
      (min (max (S : Int) q) (lyr.length : Int)).toNat ≤ clampN lyr q := by
  rw [clampN] at h ⊢
  omega

/-- A slice followed by the remaining drop tiles the drop from the slice's
start. -/
theorem sliceL_append_drop (lyr : List Char) (a b : ℕ) (hab : a ≤ b) :
    sliceL lyr a b ++ lyr.drop b = lyr.drop a := by
  rw [sliceL]
  have h2 : lyr.drop b = (lyr.drop a).drop (b - a) := by
    rw [List.drop_drop]
    congr 1
    omega
  rw [h2, List.take_append_drop]

/-- The segment loop on an empty chord list, at any fuel. -/
theorem segsAuxF_nil (lyr : List Char) (k : Int) (fuel lastEnd : ℕ) :
    segsAuxF lyr k fuel [] lastEnd =
      if lastEnd < lyr.length then [⟨trimEndChars (lyr.drop lastEnd), none⟩] else [] := by
  cases fuel <;> rw [segsAuxF]

/-- Coverage of the segment loop once the chord list is exhausted: the
final remaining text is the drop from `lastEnd`, up to its trailing
whitespace. -/
theorem segsAuxF_coverage_nil (lyr : List Char) (k : Int) (hn : nbspChar ∉ lyr)
    (fuel lastEnd : ℕ) (hle : lastEnd ≤ lyr.length) :
    ∃ t, (∀ ch ∈ t, isJsWhite ch = true) ∧
      decodedConcat (segsAuxF lyr k fuel [] lastEnd) ++ t = lyr.drop lastEnd := by
  rw [segsAuxF_nil]
  by_cases hlt : lastEnd < lyr.length
  · rw [if_pos hlt]
    refine ⟨((lyr.drop lastEnd).reverse.takeWhile isJsWhite).reverse,
      (trimEndChars_reconstruct (lyr.drop lastEnd)).1, ?_⟩
    rw [decodedConcat_cons, decodedConcat_nil, List.append_nil,
      segTextDecoded_sub lyr hn _
        (fun ch hch => List.mem_of_mem_drop (mem_trimEndChars _ ch hch)) none]
    exact (trimEndChars_reconstruct (lyr.drop lastEnd)).2
  · rw [if_neg hlt]
    refine ⟨[], by simp, ?_⟩
    have h0 : lastEnd = lyr.length := by omega
    rw [decodedConcat_nil, h0, List.drop_length]
    rfl

/-- Main induction for C3: on non-breaking-space-free lyrics and a sorted
chord list whose first clamped offset is not behind `lastEnd`, the decoded
segment texts concatenate to the drop from `lastEnd`, up to a trailing
whitespace suffix. -/
theorem segsAuxF_coverage (lyr : List Char) (k : Int) (hn : nbspChar ∉ lyr) :
    ∀ (fuel : ℕ) (cs : List ChordPosition) (lastEnd : ℕ), cs.length ≤ fuel →
      List.Pairwise (fun a b => a.pos ≤ b.pos) cs →
      lastEnd ≤ lyr.length →
      (∀ d ∈ cs.head?, lastEnd ≤ clampN lyr d.pos) →
      ∃ t, (∀ ch ∈ t, isJsWhite ch = true) ∧
        decodedConcat (segsAuxF lyr k fuel cs lastEnd) ++ t = lyr.drop lastEnd := by
  intro fuel
  induction fuel with
  | zero =>
    intro cs lastEnd hlen _ hle _
    have hcs : cs = [] := List.length_eq_zero.mp (Nat.le_zero.mp hlen)
    subst hcs
    exact segsAuxF_coverage_nil lyr k hn 0 lastEnd hle
  | succ fuel ih =>
    intro cs lastEnd hlen hsort hle hhead
    cases cs with
    | nil => exact segsAuxF_coverage_nil lyr k hn (fuel + 1) lastEnd hle
    | cons c rest =>
      obtain ⟨hcrest, hprest⟩ := List.pairwise_cons.mp hsort
      have hhead' : lastEnd ≤ clampN lyr c.pos := hhead c (by simp)
      simp only [segsAuxF]
      set S := computeSnappedAt lyr lastEnd c.pos with hSdef
      obtain ⟨hLS, hSc⟩ := computeSnappedAt_bounds lyr lastEnd c.pos hhead'
      rw [← hSdef] at hLS hSc
      have hSlen : S ≤ lyr.length := le_trans hSc (clampN_le lyr c.pos)
      have hgapt : (if lastEnd < S then sliceL lyr lastEnd S else []) ++ lyr.drop S
          = lyr.drop lastEnd := by
        split
        · exact sliceL_append_drop lyr lastEnd S hLS
        · have h0 : lastEnd = S := by omega
          rw [h0, List.nil_append]
      set P := fun d : ChordPosition => computeSnappedAt lyr lastEnd d.pos == S with hPdef
      rcases hsplit : rest.dropWhile P with _ | ⟨d, tl⟩
      · simp only [List.head?_nil, List.isEmpty_nil, Bool.true_and]
        have hcn : (min (max (S : Int) (lyr.length : Int)) (lyr.length : Int)).toNat
            = lyr.length := by omega
        simp only [hcn]
        rw [if_pos (show decide (lyr.length ≤ lyr.length) = true by simp)]
        have hfull : sliceL lyr S lyr.length = lyr.drop S := by
          rw [sliceL]
          apply List.take_of_length_le
          simp
        rw [hfull, segsAuxF_nil, if_neg (lt_irrefl lyr.length)]
        refine ⟨((lyr.drop S).reverse.takeWhile isJsWhite).reverse,
          (trimEndChars_reconstruct (lyr.drop S)).1, ?_⟩
        rw [decodedConcat_append, decodedConcat_cons, decodedConcat_nil,
          List.append_nil, decodedConcat_gapSeg lyr hn,
          segTextDecoded_emit lyr hn _
            (fun ch hch => List.mem_of_mem_drop (mem_trimEndChars _ ch hch)) _,
          List.append_assoc, (trimEndChars_reconstruct (lyr.drop S)).2]
        exact hgapt
      · simp only [List.head?_cons, List.isEmpty_cons, Bool.false_and]
        rw [if_neg (show ¬(false = true) by simp)]
        set CN := (min (max (S : Int) d.pos) (lyr.length : Int)).toNat with hCNdef
        have hdmem : d ∈ rest := (List.dropWhile_sublist _).subset
          (by rw [hsplit]; exact List.mem_cons_self d tl)
        have hcd : c.pos ≤ d.pos := hcrest d hdmem
        have hSd : S ≤ clampN lyr d.pos := le_trans hSc (clampN_mono lyr hcd)
        obtain ⟨hCN1, hCN2, hCN3⟩ := clampedNext_bounds lyr S d.pos hSlen hSd
        rw [← hCNdef] at hCN1 hCN2 hCN3
        have hlen2 : (d :: tl).length ≤ fuel := by
          have h1 : (rest.dropWhile P).length ≤ rest.length :=
            (List.dropWhile_sublist _).length_le
          rw [hsplit] at h1
          have h2 : (c :: rest).length ≤ fuel + 1 := hlen
          simp only [List.length_cons] at h1 h2 ⊢
          omega
        have hpw : List.Pairwise (fun a b : ChordPosition => a.pos ≤ b.pos) (d :: tl) := by
          refine List.Pairwise.sublist ?_ hprest
          rw [← hsplit]
          exact List.dropWhile_sublist _
        obtain ⟨t, ht, hrec⟩ := ih (d :: tl) CN hlen2 hpw hCN2
          (fun e he => by
            have he2 : d = e := by simpa using he
            subst he2
            exact hCN3)
        refine ⟨t, ht, ?_⟩
        rw [decodedConcat_append, decodedConcat_cons, decodedConcat_gapSeg lyr hn,
          segTextDecoded_emit lyr hn _ (mem_sliceL lyr S CN) _]
        simp only [List.append_assoc]
        rw [hrec, sliceL_append_drop lyr S CN hCN1]
        exact hgapt

/-- CLAIM C3 (corrected): for every lyrics string that contains no literal
U+00A0 character and every list of `ChordPosition` entries, concatenating
the output segments' `text` fields in order — reading each non-breaking
space text as the empty string — reconstructs the lyrics up to the final
trailing-whitespace trim: a whitespace-only suffix completes the decoded
concatenation back to the lyrics. -/
theorem segmenter_coverage_amended (lyr : List Char) (chords : List ChordPosition)
    (k : Int) (hn : nbspChar ∉ lyr) :
    ∃ t, (∀ ch ∈ t, isJsWhite ch = true) ∧
      decodedConcat (segments lyr chords k) ++ t = lyr := by
  rw [segments]
  by_cases hl : lyr.isEmpty
  · rw [if_pos hl]
    exact ⟨[], by simp, by simp [decodedConcat, List.isEmpty_iff.mp hl]⟩
  · rw [if_neg hl]
    by_cases hc : chords.isEmpty
    · rw [if_pos hc]
      refine ⟨[], by simp, ?_⟩
      rw [decodedConcat_cons, decodedConcat_nil, List.append_nil, List.append_nil,
        segTextDecoded_sub lyr hn lyr (fun _ h => h) none]
    · rw [if_neg hc, segsAux]
      haveI : IsTotal ChordPosition (fun a b => a.pos ≤ b.pos) :=
        ⟨fun a b => le_total a.pos b.pos⟩
      haveI : IsTrans ChordPosition (fun a b => a.pos ≤ b.pos) :=
        ⟨fun _ _ _ h1 h2 => le_trans h1 h2⟩
      have hsorted : List.Pairwise (fun a b : ChordPosition => a.pos ≤ b.pos)
          (sortChords chords) :=
        List.sorted_insertionSort (fun a b : ChordPosition => a.pos ≤ b.pos) chords
      obtain ⟨t, ht, hcov⟩ := segsAuxF_coverage lyr k hn (sortChords chords).length
        (sortChords chords) 0 le_rfl hsorted (Nat.zero_le _) (fun _ _ => Nat.zero_le _)
      rw [List.drop_zero] at hcov
      exact ⟨t, ht, hcov⟩

/-- Witness for C3 at the lyrics `"hi there "` (with a trailing space)
and a single chord at offset 3. -/
theorem segmenter_coverage_amended_witness :
    (nbspChar ∉ "hi there ".toList) ∧
      ∃ t, (∀ ch ∈ t, isJsWhite ch = true) ∧
        decodedConcat (segments "hi there ".toList [⟨"Cmaj7", 3⟩] 0) ++ t
          = "hi there ".toList :=
  ⟨by decide, segmenter_coverage_amended "hi there ".toList [⟨"Cmaj7", 3⟩] 0 (by decide)⟩

/-! ## C7: idempotence of the glued-chord tokenizer -/

/-- An uppercase root letter is not a separator. -/
theorem upper_not_sep (c : Char) (h : isUpperRootChar c = true) : isSepChar c = false := by
  simp only [isUpperRootChar, decide_eq_true_eq] at h
  obtain ⟨h1, h2⟩ := h
  rw [← Bool.not_eq_true]
  intro hc
  simp only [isSepChar, isJsWhite, decide_eq_true_eq] at hc
  rcases hc with ((rfl|rfl|rfl|rfl|rfl|rfl|rfl|rfl|⟨h3,h4⟩|rfl|rfl|rfl|rfl|rfl|rfl)|rfl|rfl|rfl|rfl|rfl|⟨h3,h4⟩|⟨h3,h4⟩) <;>
    first
      | exact absurd h1 (by decide)
      | exact absurd h2 (by decide)
      | exact absurd (h1.trans h4) (by decide)
      | exact absurd (h3.trans h2) (by decide)

/-- A lowercase root letter is not a separator. -/
theorem lower_not_sep (c : Char) (h : isLowerRootChar c = true) : isSepChar c = false := by
  simp only [isLowerRootChar, decide_eq_true_eq] at h
  obtain ⟨h1, h2⟩ := h
  rw [← Bool.not_eq_true]
  intro hc
  simp only [isSepChar, isJsWhite, decide_eq_true_eq] at hc
  rcases hc with ((rfl|rfl|rfl|rfl|rfl|rfl|rfl|rfl|⟨h3,h4⟩|rfl|rfl|rfl|rfl|rfl|rfl)|rfl|rfl|rfl|rfl|rfl|⟨h3,h4⟩|⟨h3,h4⟩) <;>
    first
      | exact absurd h1 (by decide)
      | exact absurd h2 (by decide)
      | exact absurd (h1.trans h4) (by decide)
      | exact absurd (h3.trans h2) (by decide)

/-- An ASCII digit is not a separator. -/
theorem digit_not_sep (c : Char) (h : isDigitChar c = true) : isSepChar c = false := by
  simp only [isDigitChar, decide_eq_true_eq] at h
  obtain ⟨h1, h2⟩ := h
  rw [← Bool.not_eq_true]
  intro hc
  simp only [isSepChar, isJsWhite, decide_eq_true_eq] at hc
  rcases hc with ((rfl|rfl|rfl|rfl|rfl|rfl|rfl|rfl|⟨h3,h4⟩|rfl|rfl|rfl|rfl|rfl|rfl)|rfl|rfl|rfl|rfl|rfl|⟨h3,h4⟩|⟨h3,h4⟩) <;>
    first
      | exact absurd h1 (by decide)
      | exact absurd h2 (by decide)
      | exact absurd (h1.trans h4) (by decide)
      | exact absurd (h3.trans h2) (by decide)

/-- An uppercase root letter does not match the `[0-9)]` class. -/
theorem upper_not_prevsplit (c : Char) (h : isUpperRootChar c = true) :
    isPrevSplitChar c = false := by
  simp only [isUpperRootChar, decide_eq_true_eq] at h
  obtain ⟨h1, h2⟩ := h
  rw [← Bool.not_eq_true]
  intro hc
  simp only [isPrevSplitChar, isDigitChar, decide_eq_true_eq] at hc
  rcases hc with ⟨h3, h4⟩ | rfl
  · exact absurd (h1.trans h4) (by decide)
  · exact absurd h1 (by decide)

/-- A lowercase root letter does not match the `[0-9)]` class. -/
theorem lower_not_prevsplit (c : Char) (h : isLowerRootChar c = true) :
    isPrevSplitChar c = false := by
  simp only [isLowerRootChar, decide_eq_true_eq] at h
  obtain ⟨h1, h2⟩ := h
  rw [← Bool.not_eq_true]
  intro hc
  simp only [isPrevSplitChar, isDigitChar, decide_eq_true_eq] at hc
  rcases hc with ⟨h3, h4⟩ | rfl
  · exact absurd (h1.trans h4) (by decide)
  · exact absurd h1 (by decide)

/-- An ASCII digit is not a lowercase root letter. -/
theorem digit_not_lower (c : Char) (h : isDigitChar c = true) :
    isLowerRootChar c = false := by
  simp only [isDigitChar, decide_eq_true_eq] at h
  obtain ⟨h1, h2⟩ := h
  rw [← Bool.not_eq_true]
  intro hc
  simp only [isLowerRootChar, decide_eq_true_eq] at hc
  exact absurd (hc.1.trans h2) (by decide)

/-- An ASCII digit is not an uppercase root letter. -/
theorem digit_not_upper (c : Char) (h : isDigitChar c = true) :
    isUpperRootChar c = false := by
  simp only [isDigitChar, decide_eq_true_eq] at h
  obtain ⟨h1, h2⟩ := h
  rw [← Bool.not_eq_true]
  intro hc
  simp only [isUpperRootChar, decide_eq_true_eq] at hc
  exact absurd (hc.1.trans h2) (by decide)

/-- An ASCII digit is not a slash. -/
theorem digit_ne_slash (c : Char) (h : isDigitChar c = true) : ¬(c = '/') := by
  simp only [isDigitChar, decide_eq_true_eq] at h
  intro hc
  subst hc
  exact absurd h.1 (by decide)

/-- An uppercase root letter is not a slash. -/
theorem upper_ne_slash (c : Char) (h : isUpperRootChar c = true) : ¬(c = '/') := by
  simp only [isUpperRootChar, decide_eq_true_eq] at h
  intro hc
  subst hc
  exact absurd h.1 (by decide)

/-- A lowercase root letter is not a slash. -/
theorem lower_ne_slash (c : Char) (h : isLowerRootChar c = true) : ¬(c = '/') := by
  simp only [isLowerRootChar, decide_eq_true_eq] at h
  intro hc
  subst hc
  exact absurd h.1 (by decide)

/-- An accidental is not an uppercase root letter. -/
theorem acc_not_upper (c : Char) (h : isAccChar c = true) :
    isUpperRootChar c = false := by
  simp only [isAccChar, decide_eq_true_eq] at h
  rcases h with rfl | rfl | rfl | rfl <;> decide

/-- An accidental is not a slash. -/
theorem acc_ne_slash (c : Char) (h : isAccChar c = true) : ¬(c = '/') := by
  simp only [isAccChar, decide_eq_true_eq] at h
  rcases h with rfl | rfl | rfl | rfl <;> decide

/-- An ASCII digit matches the `[0-9)]` class. -/
theorem prevsplit_of_digit (c : Char) (h : isDigitChar c = true) :
    isPrevSplitChar c = true := by
  simp [isPrevSplitChar, h]

/-- A character that is not a separator is not ECMAScript white space. -/
theorem not_white_of_not_sep (c : Char) (h : isSepChar c = false) :
    isJsWhite c = false := by
  rw [← Bool.not_eq_true] at h ⊢
  intro hw
  exact h (by simp [isSepChar, hw])

/-- The root test of the glue scanner at current character `c`, previous
character `p`, current token `cur` and remaining input `r` (the lookahead
of the flat-modifier rule reads the head of `r`). -/
def glueRootTest (p : Option Char) (cur : List Char) (c : Char) (r : List Char) : Bool :=
  isUpperRootChar c || (isLowerRootChar c && !cur.isEmpty && prevSplitOpt p &&
    !(c = 'b' && headDigit r))

/-- Whether the remaining input starts with an accidental (the pair-consume
lookahead). -/
def headAcc : List Char → Bool
  | d :: _ => isAccChar d
  | [] => false

/-- The glue scanner on exhausted input, at any fuel. -/
theorem glueScanF_nil (f : ℕ) (p : Option Char) (cur : List Char) :
    glueScanF f p cur [] = if cur.isEmpty then [] else [cur] := by
  cases f <;> rfl

/-- The glue scanner at the canonical fuel on exhausted input. -/
theorem glueScan_nil (p : Option Char) (cur : List Char) :
    glueScan p cur [] = if cur.isEmpty then [] else [cur] := rfl

/-- Any fuel at least the input length gives the canonical-fuel scan. -/
theorem glueScanF_fuel_eq : ∀ (n : ℕ) (l : List Char), l.length ≤ n →
    ∀ (f : ℕ) (p : Option Char) (cur : List Char), l.length ≤ f →
      glueScanF f p cur l = glueScanF l.length p cur l := by
  intro n
  induction n using Nat.strong_induction_on with
  | _ n ih =>
    intro l hln f p cur hlf
    match l with
    | [] => rw [glueScanF_nil, glueScanF_nil]
    | c :: r =>
      match f with
      | 0 => exact absurd hlf (by simp)
      | f' + 1 =>
        have hn1 : 1 ≤ n := le_trans (by simp) hln
        show glueScanF (f' + 1) p cur (c :: r) = glueScanF (r.length + 1) p cur (c :: r)
        cases r with
        | nil =>
          rw [glueScanF]
          conv_rhs => rw [glueScanF]
          simp only [glueScanF_nil]
        | cons d r2 =>
          have hr : (d :: r2).length < n := by
            simp only [List.length_cons] at hln ⊢
            omega
          have hr2 : r2.length < n := by
            simp only [List.length_cons] at hln
            omega
          have hf' : (d :: r2).length ≤ f' := by
            simp only [List.length_cons] at hlf ⊢
            omega
          have hrec1 : ∀ (q : Option Char) (x : List Char),
              glueScanF f' q x (d :: r2) = glueScanF (d :: r2).length q x (d :: r2) :=
            fun q x => ih _ hr (d :: r2) le_rfl f' q x hf'
          have hrec2 : ∀ (q : Option Char) (x : List Char),
              glueScanF f' q x r2 = glueScanF r2.length q x r2 :=
            fun q x => ih _ hr2 r2 le_rfl f' q x (by
              simp only [List.length_cons] at hlf
              omega)
          have hrec3 : ∀ (q : Option Char) (x : List Char),
              glueScanF (d :: r2).length q x r2 = glueScanF r2.length q x r2 :=
            fun q x => ih _ hr2 r2 le_rfl (d :: r2).length q x (by simp)
          rw [glueScanF]
          conv_rhs => rw [glueScanF]
          by_cases hs : isSepChar c = true
          · rw [if_pos hs, if_pos hs]
            by_cases hcur : cur.isEmpty = true
            · rw [if_pos hcur, if_pos hcur, hrec1]
            · rw [if_neg hcur, if_neg hcur, hrec1]
          · rw [if_neg hs, if_neg hs]
            by_cases ht : (isUpperRootChar c ||
                (isLowerRootChar c && !cur.isEmpty && prevSplitOpt p &&
                  !(c = 'b' && headDigit (d :: r2)))) = true
            · rw [if_pos ht, if_pos ht]
              by_cases ha : isAccChar d = true
              · rw [if_pos ha, if_pos ha, hrec2, hrec3]
              · rw [if_neg ha, if_neg ha, hrec1]
            · rw [if_neg ht, if_neg ht]
              by_cases hsl : c = '/'
              · rw [if_pos hsl, if_pos hsl, hrec1]
              · rw [if_neg hsl, if_neg hsl, hrec1]

/-- Step equation: a separator flushes the current token and restarts. -/
theorem glueScan_sep (p : Option Char) (cur : List Char) (c : Char) (r : List Char)
    (hc : isSepChar c = true) :
    glueScan p cur (c :: r) =
      (if cur.isEmpty then [] else [cur]) ++ glueScan (some c) [] r := by
  cases r with
  | nil =>
    show glueScanF (0 + 1) p cur [c] = _
    rw [glueScanF, if_pos hc]
    by_cases hcur : cur.isEmpty = true
    · rw [if_pos hcur, if_pos hcur]
      rfl
    · rw [if_neg hcur, if_neg hcur]
      rfl
  | cons d r2 =>
    show glueScanF ((d :: r2).length + 1) p cur (c :: d :: r2) = _
    rw [glueScanF, if_pos hc]
    by_cases hcur : cur.isEmpty = true
    · rw [if_pos hcur, if_pos hcur]
      rfl
    · rw [if_neg hcur, if_neg hcur]
      rfl

/-- Step equation: a root character without accidental lookahead flushes
the current token (unless empty or after a slash) and consumes one
character. -/
theorem glueScan_root_single (p : Option Char) (cur : List Char) (c : Char)
    (r : List Char) (hs : isSepChar c = false) (ht : glueRootTest p cur c r = true)
    (ha : headAcc r = false) :
    glueScan p cur (c :: r) =
      (if (!cur.isEmpty && !isSlashOpt p) = true then [cur] else []) ++
        glueScan (some c) ((if (!cur.isEmpty && !isSlashOpt p) = true then [] else cur) ++ [c]) r := by
  simp only [glueRootTest] at ht
  cases r with
  | nil =>
    show glueScanF (0 + 1) p cur [c] = _
    rw [glueScanF, if_neg (by simp [hs]), if_pos ht]
    rfl
  | cons d r2 =>
    have ha' : isAccChar d = false := ha
    show glueScanF ((d :: r2).length + 1) p cur (c :: d :: r2) = _
    rw [glueScanF, if_neg (by simp [hs]), if_pos ht,
      if_neg (show ¬(isAccChar d = true) by simp [ha'])]
    rfl

/-- Step equation: a root character with accidental lookahead flushes
(unless empty or after a slash) and consumes the pair. -/
theorem glueScan_root_pair (p : Option Char) (cur : List Char) (c d : Char)
    (r2 : List Char) (hs : isSepChar c = false)
    (ht : glueRootTest p cur c (d :: r2) = true) (ha : isAccChar d = true) :
    glueScan p cur (c :: d :: r2) =
      (if (!cur.isEmpty && !isSlashOpt p) = true then [cur] else []) ++
        glueScan (some d) ((if (!cur.isEmpty && !isSlashOpt p) = true then [] else cur) ++ [c, d]) r2 := by
  simp only [glueRootTest] at ht
  have hfl : ∀ (q : Option Char) (x : List Char),
      glueScanF (d :: r2).length q x r2 = glueScanF r2.length q x r2 :=
    fun q x => glueScanF_fuel_eq r2.length r2 le_rfl _ q x (by simp)
  show glueScanF ((d :: r2).length + 1) p cur (c :: d :: r2) = _
  rw [glueScanF, if_neg (by simp [hs]), if_pos ht, if_pos ha, hfl]
  rfl

/-- Step equation: a non-separator character failing the root test is
consumed into the current token (both the `/` branch and the final catch-all
branch of the scanner do this). -/
theorem glueScan_consume (p : Option Char) (cur : List Char) (c : Char)
    (r : List Char) (hs : isSepChar c = false) (ht : glueRootTest p cur c r = false) :
    glueScan p cur (c :: r) = glueScan (some c) (cur ++ [c]) r := by
  simp only [glueRootTest] at ht
  cases r with
  | nil =>
    show glueScanF (0 + 1) p cur [c] = _
    rw [glueScanF, if_neg (by simp [hs]), if_neg (by rw [ht]; exact Bool.false_ne_true)]
    by_cases hsl : c = '/'
    · rw [if_pos hsl]
      rfl
    · rw [if_neg hsl]
      rfl
  | cons d r2 =>
    show glueScanF ((d :: r2).length + 1) p cur (c :: d :: r2) = _
    rw [glueScanF, if_neg (by simp [hs]), if_neg (by rw [ht]; exact Bool.false_ne_true)]
    by_cases hsl : c = '/'
    · rw [if_pos hsl]
      rfl
    · rw [if_neg hsl]
      rfl

/-- A lowercase root letter is not an uppercase root letter. -/
theorem lower_not_upper (c : Char) (h : isLowerRootChar c = true) :
    isUpperRootChar c = false := by
  simp only [isLowerRootChar, decide_eq_true_eq] at h
  rw [← Bool.not_eq_true]
  intro hc
  simp only [isUpperRootChar, decide_eq_true_eq] at hc
  exact absurd (h.1.trans hc.2) (by decide)

/-- The initial previous character is irrelevant when the current token is
empty: every use of it in the scanner is guarded by a non-empty current
token. -/
theorem glueScan_prev_start (q q' : Option Char) (l : List Char) :
    glueScan q [] l = glueScan q' [] l := by
  cases l with
  | nil => rfl
  | cons c r =>
    by_cases hs : isSepChar c = true
    · rw [glueScan_sep q [] c r hs, glueScan_sep q' [] c r hs]
    · have hs' : isSepChar c = false := by simpa using hs
      have htq : glueRootTest q [] c r = isUpperRootChar c := by simp [glueRootTest]
      have htq' : glueRootTest q' [] c r = isUpperRootChar c := by simp [glueRootTest]
      by_cases hu : isUpperRootChar c = true
      · cases hh : headAcc r with
        | false =>
          rw [glueScan_root_single q [] c r hs' (by rw [htq]; exact hu) hh,
            glueScan_root_single q' [] c r hs' (by rw [htq']; exact hu) hh]
          simp
        | true =>
          cases r with
          | nil => exact absurd hh (by simp [headAcc])
          | cons d r2 =>
            have ha : isAccChar d = true := hh
            rw [glueScan_root_pair q [] c d r2 hs' (by rw [htq]; exact hu) ha,
              glueScan_root_pair q' [] c d r2 hs' (by rw [htq']; exact hu) ha]
            simp
      · have hu' : isUpperRootChar c = false := by simpa using hu
        rw [glueScan_consume q [] c r hs' (by rw [htq]; exact hu'),
          glueScan_consume q' [] c r hs' (by rw [htq']; exact hu')]

/-- The re-scan invariant: scanning the current token from scratch (empty
state) behaves, on any continuation, exactly like continuing from the
current state. -/
def PRstate (p : Option Char) (cur : List Char) : Prop :=
  ∀ rest', glueScan none [] (cur ++ rest') = glueScan p cur rest'

/-- The empty state simulates itself after any previous character. -/
theorem PR_nil (q : Option Char) : PRstate q [] := by
  intro rest'
  rw [List.nil_append]
  exact glueScan_prev_start none q rest'

/-- A single freshly started token simulates: any non-separator character
starting a token from the empty state reproduces the state `([c], c)`. -/
theorem PR_fresh (c : Char) (hs : isSepChar c = false) : PRstate (some c) [c] := by
  intro rest'
  show glueScan none [] (c :: rest') = glueScan (some c) [c] rest'
  by_cases hu : isUpperRootChar c = true
  · have ht : glueRootTest none [] c rest' = true := by simp [glueRootTest, hu]
    cases hh : headAcc rest' with
    | false =>
      rw [glueScan_root_single none [] c rest' hs ht hh]
      simp
    | true =>
      cases rest' with
      | nil => exact absurd hh (by simp [headAcc])
      | cons d r2 =>
        have ha : isAccChar d = true := hh
        rw [glueScan_root_pair none [] c d r2 hs ht ha]
        have htd : glueRootTest (some c) [c] d r2 = false := by
          simp [glueRootTest, acc_not_upper d ha, prevSplitOpt, upper_not_prevsplit c hu]
        rw [show ((if (!([] : List Char).isEmpty && !isSlashOpt none) = true then []
          else ([] : List Char)) ++ [c, d]) = [c, d] by simp]
        rw [show ((if (!([] : List Char).isEmpty && !isSlashOpt none) = true then [([] : List Char)]
          else [])) = ([] : List (List Char)) by simp]
        rw [List.nil_append, glueScan_consume (some c) [c] d r2 (isAccChar_not_sep d ha) htd]
        rfl
  · have hu' : isUpperRootChar c = false := by simpa using hu
    have ht : glueRootTest none [] c rest' = false := by simp [glueRootTest, hu']
    rw [glueScan_consume none [] c rest' hs ht]
    simp

/-- A freshly started root-plus-accidental pair simulates. -/
theorem PR_freshpair (c d : Char) (hs : isSepChar c = false) (ha : isAccChar d = true)
    (hroot : isUpperRootChar c = true ∨ isLowerRootChar c = true) :
    PRstate (some d) [c, d] := by
  intro rest'
  show glueScan none [] (c :: d :: rest') = glueScan (some d) [c, d] rest'
  rcases hroot with hu | hl
  · have ht : glueRootTest none [] c (d :: rest') = true := by simp [glueRootTest, hu]
    rw [glueScan_root_pair none [] c d rest' hs ht ha]
    simp
  · have ht : glueRootTest none [] c (d :: rest') = false := by
      simp [glueRootTest, lower_not_upper c hl]
    rw [glueScan_consume none [] c (d :: rest') hs ht, List.nil_append]
    have htd : glueRootTest (some c) [c] d rest' = false := by
      simp [glueRootTest, acc_not_upper d ha, prevSplitOpt, lower_not_prevsplit c hl]
    rw [glueScan_consume (some c) [c] d rest' (isAccChar_not_sep d ha) htd]
    rfl

/-- Simulation is preserved by consuming a character that can never pass
the root test from this state (covers the `/` branch, the catch-all branch
and lowercase letters blocked by the previous character). -/
theorem PR_consume (p : Option Char) (cur : List Char) (c : Char)
    (hPR : PRstate p cur) (hs : isSepChar c = false) (hu : isUpperRootChar c = false)
    (hlow : isLowerRootChar c = false ∨ cur.isEmpty = true ∨ prevSplitOpt p = false) :
    PRstate (some c) (cur ++ [c]) := by
  intro rest'
  have h2 : cur ++ [c] ++ rest' = cur ++ c :: rest' := by simp
  rw [h2, hPR (c :: rest')]
  have ht : glueRootTest p cur c rest' = false := by
    rcases hlow with h | h | h <;> simp [glueRootTest, hu, h]
  exact glueScan_consume p cur c rest' hs ht

/-- Simulation is preserved by the flat-modifier two-character step: a `b`
followed by a digit is consumed as a modifier, never as a new root. -/
theorem PR_bdigit (p : Option Char) (cur : List Char) (g : Char)
    (hPR : PRstate p cur) (hg : isDigitChar g = true) :
    PRstate (some g) (cur ++ ['b', g]) := by
  intro rest'
  have h2 : cur ++ ['b', g] ++ rest' = cur ++ 'b' :: g :: rest' := by simp
  rw [h2, hPR ('b' :: g :: rest')]
  have hub : isUpperRootChar 'b' = false := by decide
  have ht1 : glueRootTest p cur 'b' (g :: rest') = false := by
    simp [glueRootTest, headDigit, hg, hub]
  rw [glueScan_consume p cur 'b' (g :: rest') (by decide) ht1]
  have ht2 : glueRootTest (some 'b') (cur ++ ['b']) g rest' = false := by
    simp [glueRootTest, digit_not_upper g hg, digit_not_lower g hg]
  rw [glueScan_consume (some 'b') (cur ++ ['b']) g rest' (digit_not_sep g hg) ht2]
  have h3 : (cur ++ ['b']) ++ [g] = cur ++ ['b', g] := by simp
  rw [h3]

/-- Simulation is preserved when a root letter extends a bass note after a
slash (single consume). -/
theorem PR_afterslash_single (p : Option Char) (cur : List Char) (c : Char)
    (hPR : PRstate p cur) (hp : isSlashOpt p = true) (hu : isUpperRootChar c = true) :
    PRstate (some c) (cur ++ [c]) := by
  intro rest'
  have h2 : cur ++ [c] ++ rest' = cur ++ c :: rest' := by simp
  rw [h2, hPR (c :: rest')]
  have hs : isSepChar c = false := upper_not_sep c hu
  have ht : glueRootTest p cur c rest' = true := by simp [glueRootTest, hu]
  cases hh : headAcc rest' with
  | false =>
    rw [glueScan_root_single p cur c rest' hs ht hh]
    simp [hp]
  | true =>
    cases rest' with
    | nil => exact absurd hh (by simp [headAcc])
    | cons d r2 =>
      have ha : isAccChar d = true := hh
      rw [glueScan_root_pair p cur c d r2 hs ht ha]
      have htd : glueRootTest (some c) (cur ++ [c]) d r2 = false := by
        simp [glueRootTest, acc_not_upper d ha, prevSplitOpt, upper_not_prevsplit c hu]
      rw [glueScan_consume (some c) (cur ++ [c]) d r2 (isAccChar_not_sep d ha) htd]
      have h3 : (cur ++ [c]) ++ [d] = cur ++ [c, d] := by simp
      rw [h3]
      simp [hp]

/-- Simulation is preserved when a root letter plus accidental extends a
bass note after a slash (pair consume). -/
theorem PR_afterslash_pair (p : Option Char) (cur : List Char) (c d : Char)
    (hPR : PRstate p cur) (hp : isSlashOpt p = true) (hu : isUpperRootChar c = true)
    (ha : isAccChar d = true) :
    PRstate (some d) (cur ++ [c, d]) := by
  intro rest'
  have h2 : cur ++ [c, d] ++ rest' = cur ++ c :: d :: rest' := by simp
  rw [h2, hPR (c :: d :: rest')]
  have hs : isSepChar c = false := upper_not_sep c hu
  have ht : glueRootTest p cur c (d :: rest') = true := by simp [glueRootTest, hu]
  rw [glueScan_root_pair p cur c d rest' hs ht ha]
  simp [hp]

/-- A slash previous character does not match the `[0-9)]` class. -/
theorem slash_not_prevsplit (p : Option Char) (h : isSlashOpt p = true) :
    prevSplitOpt p = false := by
  cases p with
  | none => exact absurd h (by decide)
  | some q =>
    rw [isSlashOpt.eq_def] at h
    split at h
    · rename_i heq
      rw [Option.some.injEq] at heq
      subst heq
      decide
    · exact absurd h (by simp)

/-- A good token: non-empty, separator-free, and re-scan-simulating from
some previous character. -/
def GoodTok (tok : List Char) : Prop :=
  tok ≠ [] ∧ (∀ ch ∈ tok, isSepChar ch = false) ∧ ∃ q, PRstate q tok

/-- Every token the glue scanner emits from a simulating state is good. -/
theorem glueScan_tokens : ∀ (n : ℕ) (l : List Char), l.length ≤ n →
    ∀ (p : Option Char) (cur : List Char),
      (∀ ch ∈ cur, isSepChar ch = false) → PRstate p cur →
      ∀ tok ∈ glueScan p cur l, GoodTok tok := by
  intro n
  induction n using Nat.strong_induction_on with
  | _ n ih =>
    intro l hln p cur hcur hPR tok htok
    match l with
    | [] =>
      rw [glueScan_nil] at htok
      by_cases hc : cur.isEmpty = true
      · rw [if_pos hc] at htok
        simp at htok
      · rw [if_neg hc] at htok
        rw [List.mem_singleton] at htok
        subst htok
        exact ⟨by simpa using hc, hcur, p, hPR⟩
    | c :: r =>
      have hrn : r.length < n := by
        simp only [List.length_cons] at hln
        omega
      by_cases hs : isSepChar c = true
      · rw [glueScan_sep p cur c r hs] at htok
        rcases List.mem_append.mp htok with hmem | hmem
        · by_cases hc : cur.isEmpty = true
          · rw [if_pos hc] at hmem
            simp at hmem
          · rw [if_neg hc] at hmem
            rw [List.mem_singleton] at hmem
            subst hmem
            exact ⟨by simpa using hc, hcur, p, hPR⟩
        · exact ih r.length hrn r le_rfl (some c) [] (by simp) (PR_nil _) tok hmem
      · have hs' : isSepChar c = false := by simpa using hs
        by_cases ht : glueRootTest p cur c r = true
        · have hroot : isUpperRootChar c = true ∨ isLowerRootChar c = true := by
            simp only [glueRootTest, Bool.or_eq_true] at ht
            rcases ht with h | h
            · exact Or.inl h
            · simp only [Bool.and_eq_true] at h
              tauto
          have hflush : ∀ hmem : tok ∈ (if (!cur.isEmpty && !isSlashOpt p) = true
              then [cur] else []), GoodTok tok := by
            intro hmem
            by_cases hf : (!cur.isEmpty && !isSlashOpt p) = true
            · rw [if_pos hf] at hmem
              rw [List.mem_singleton] at hmem
              subst hmem
              have hcne : tok ≠ [] := by
                simp only [Bool.and_eq_true, Bool.not_eq_true'] at hf
                simpa using hf.1
              exact ⟨hcne, hcur, p, hPR⟩
            · rw [if_neg hf] at hmem
              simp at hmem
          have hnoflush : ¬((!cur.isEmpty && !isSlashOpt p) = true) →
              cur.isEmpty = true ∨ isSlashOpt p = true := by
            intro hf
            by_cases hce : cur.isEmpty = true
            · exact Or.inl hce
            · right
              by_contra hsp
              simp only [Bool.not_eq_true] at hce hsp
              exact hf (by simp [hce, hsp])
          have huslash : isSlashOpt p = true → isUpperRootChar c = true := by
            intro hsp
            simp only [glueRootTest, Bool.or_eq_true] at ht
            rcases ht with h | h
            · exact h
            · exfalso
              have hps : prevSplitOpt p = true := by
                simp only [Bool.and_eq_true] at h
                tauto
              rw [slash_not_prevsplit p hsp] at hps
              exact absurd hps (by simp)
          cases hh : headAcc r with
          | false =>
            rw [glueScan_root_single p cur c r hs' ht hh] at htok
            rcases List.mem_append.mp htok with hmem | hmem
            · exact hflush hmem
            · by_cases hf : (!cur.isEmpty && !isSlashOpt p) = true
              · rw [if_pos hf, List.nil_append] at hmem
                exact ih r.length hrn r le_rfl (some c) [c]
                  (by
                    intro ch hch
                    rw [List.mem_singleton] at hch
                    subst hch
                    exact hs')
                  (PR_fresh c hs') tok hmem
              · rw [if_neg hf] at hmem
                rcases hnoflush hf with hce | hsp
                · have hce' : cur = [] := by simpa using hce
                  subst hce'
                  rw [List.nil_append] at hmem
                  exact ih r.length hrn r le_rfl (some c) [c]
                    (by
                      intro ch hch
                      rw [List.mem_singleton] at hch
                      subst hch
                      exact hs')
                    (PR_fresh c hs') tok hmem
                · exact ih r.length hrn r le_rfl (some c) (cur ++ [c])
                    (chars_append_one _ cur c hcur hs')
                    (PR_afterslash_single p cur c hPR hsp (huslash hsp)) tok hmem
          | true =>
            cases r with
            | nil => exact absurd hh (by simp [headAcc])
            | cons d r2 =>
              have ha : isAccChar d = true := hh
              have hr2n : r2.length < n := by
                simp only [List.length_cons] at hln
                omega
              rw [glueScan_root_pair p cur c d r2 hs' ht ha] at htok
              rcases List.mem_append.mp htok with hmem | hmem
              · exact hflush hmem
              · by_cases hf : (!cur.isEmpty && !isSlashOpt p) = true
                · rw [if_pos hf, List.nil_append] at hmem
                  exact ih r2.length hr2n r2 le_rfl (some d) [c, d]
                    (by
                      intro ch hch
                      rcases List.mem_cons.mp hch with rfl | hch
                      · exact hs'
                      · rw [List.mem_singleton] at hch
                        subst hch
                        exact isAccChar_not_sep _ ha)
                    (PR_freshpair c d hs' ha hroot) tok hmem
                · rw [if_neg hf] at hmem
                  rcases hnoflush hf with hce | hsp
                  · have hce' : cur = [] := by simpa using hce
                    subst hce'
                    rw [List.nil_append] at hmem
                    exact ih r2.length hr2n r2 le_rfl (some d) [c, d]
                      (by
                        intro ch hch
                        rcases List.mem_cons.mp hch with rfl | hch
                        · exact hs'
                        · rw [List.mem_singleton] at hch
                          subst hch
                          exact isAccChar_not_sep _ ha)
                      (PR_freshpair c d hs' ha hroot) tok hmem
                  · exact ih r2.length hr2n r2 le_rfl (some d) (cur ++ [c, d])
                      (chars_append_two _ cur c d hcur hs' (isAccChar_not_sep d ha))
                      (PR_afterslash_pair p cur c d hPR hsp (huslash hsp) ha) tok hmem
        · have ht' : glueRootTest p cur c r = false := by simpa using ht
          rw [glueScan_consume p cur c r hs' ht'] at htok
          have hsplit := ht'
          rw [glueRootTest] at hsplit
          simp only [Bool.or_eq_false_iff] at hsplit
          obtain ⟨hu', hlowband⟩ := hsplit
          by_cases hD2 : isLowerRootChar c = true ∧ cur.isEmpty = false ∧
              prevSplitOpt p = true
          · obtain ⟨hl, hne, hps⟩ := hD2
            simp only [hl, hne, hps, Bool.not_false, Bool.true_and, Bool.and_true,
              Bool.not_eq_false', Bool.and_eq_true, decide_eq_true_eq] at hlowband
            obtain ⟨hcb, hhd⟩ := hlowband
            cases r with
            | nil => exact absurd hhd (by simp [headDigit])
            | cons g r2 =>
              have hg : isDigitChar g = true := hhd
              have ht2 : glueRootTest (some c) (cur ++ [c]) g r2 = false := by
                simp [glueRootTest, digit_not_upper g hg, digit_not_lower g hg]
              rw [glueScan_consume (some c) (cur ++ [c]) g r2 (digit_not_sep g hg) ht2]
                at htok
              subst hcb
              have h3 : (cur ++ ['b']) ++ [g] = cur ++ ['b', g] := by simp
              rw [h3] at htok
              have hr2n : r2.length < n := by
                simp only [List.length_cons] at hln
                omega
              exact ih r2.length hr2n r2 le_rfl (some g) (cur ++ ['b', g])
                (chars_append_two _ cur 'b' g hcur (by decide) (digit_not_sep g hg))
                (PR_bdigit p cur g hPR hg) tok htok
          · have hlow : isLowerRootChar c = false ∨ cur.isEmpty = true ∨
                prevSplitOpt p = false := by
              by_contra hcon
              push_neg at hcon
              obtain ⟨h1, h2, h3⟩ := hcon
              exact hD2 ⟨by simpa using h1, by simpa using h2, by simpa using h3⟩
            exact ih r.length hrn r le_rfl (some c) (cur ++ [c])
              (chars_append_one _ cur c hcur hs')
              (PR_consume p cur c hPR hs' hu' hlow) tok htok

/-- Re-scanning a space-joined list of good tokens yields exactly the
tokens back. -/
theorem glueScan_join (T : List (List Char)) (hT : ∀ tok ∈ T, GoodTok tok) :
    glueScan none [] (joinSpace T) = T := by
  induction T with
  | nil => rfl
  | cons tok ts ihts =>
    obtain ⟨hne, hch, q, hPR⟩ := hT tok (by simp)
    cases ts with
    | nil =>
      show glueScan none [] tok = [tok]
      have h0 := hPR []
      rw [List.append_nil] at h0
      rw [h0, glueScan_nil, if_neg (by simpa using hne)]
    | cons t2 ts2 =>
      show glueScan none [] (tok ++ ' ' :: joinSpace (t2 :: ts2)) = tok :: t2 :: ts2
      rw [hPR (' ' :: joinSpace (t2 :: ts2)),
        glueScan_sep q tok ' ' _ (by decide), if_neg (by simpa using hne),
        glueScan_prev_start (some ' ') none,
        ihts (fun t ht => hT t (by simp [ht]))]
      rfl

/-- A space-join of non-empty tokens is non-empty. -/
theorem joinSpace_ne_nil (T : List (List Char)) (hT : T ≠ [])
    (hne : ∀ tok ∈ T, tok ≠ []) : joinSpace T ≠ [] := by
  cases T with
  | nil => exact absurd rfl hT
  | cons t ts =>
    cases ts with
    | nil => exact hne t (by simp)
    | cons t2 ts2 =>
      show t ++ ' ' :: joinSpace (t2 :: ts2) ≠ []
      simp

/-- The first character of a space-join of good tokens is not a
separator. -/
theorem joinSpace_head (T : List (List Char)) (hT : ∀ tok ∈ T, GoodTok tok) :
    joinSpace T = [] ∨ ∃ z junk, joinSpace T = z :: junk ∧ isSepChar z = false := by
  cases T with
  | nil => exact Or.inl rfl
  | cons t ts =>
    obtain ⟨hne, hch, _⟩ := hT t (by simp)
    obtain ⟨z, tl, rfl⟩ := List.exists_cons_of_ne_nil hne
    cases ts with
    | nil => exact Or.inr ⟨z, tl, rfl, hch z (by simp)⟩
    | cons t2 ts2 =>
      exact Or.inr ⟨z, tl ++ ' ' :: joinSpace (t2 :: ts2), rfl, hch z (by simp)⟩

/-- The last character of a space-join of good tokens is not a
separator. -/
theorem joinSpace_last (T : List (List Char)) (hT : ∀ tok ∈ T, GoodTok tok) :
    (joinSpace T).reverse = [] ∨
      ∃ z junk, (joinSpace T).reverse = z :: junk ∧ isSepChar z = false := by
  induction T with
  | nil => exact Or.inl rfl
  | cons t ts ihts =>
    obtain ⟨hne, hch, _⟩ := hT t (by simp)
    cases ts with
    | nil =>
      right
      obtain ⟨z, junk, hrev⟩ : ∃ z junk, t.reverse = z :: junk := by
        cases hr : t.reverse with
        | nil => exact absurd (by simpa using hr) hne
        | cons a b => exact ⟨a, b, rfl⟩
      refine ⟨z, junk, hrev, hch z ?_⟩
      have hz : z ∈ t.reverse := by
        rw [hrev]
        simp
      simpa using hz
    | cons t2 ts2 =>
      rcases ihts (fun x hx => hT x (by simp [hx])) with hnil | ⟨z, junk, hrev, hz⟩
      · exfalso
        have h2 : joinSpace (t2 :: ts2) ≠ [] :=
          joinSpace_ne_nil _ (by simp) (fun x hx => (hT x (by simp [hx])).1)
        exact h2 (by simpa using hnil)
      · right
        refine ⟨z, junk ++ ' ' :: t.reverse, ?_, hz⟩
        show (t ++ ' ' :: joinSpace (t2 :: ts2)).reverse = _
        rw [List.reverse_append, List.reverse_cons, hrev]
        simp

/-- Trimming is the identity on a space-join of good tokens. -/
theorem trim_joinSpace (T : List (List Char)) (hT : ∀ tok ∈ T, GoodTok tok) :
    trimChars (joinSpace T) = joinSpace T := by
  rw [trimChars]
  have hd : (joinSpace T).dropWhile isJsWhite = joinSpace T := by
    rcases joinSpace_head T hT with hnil | ⟨z, junk, heq, hz⟩
    · rw [hnil]
      rfl
    · rw [heq, List.dropWhile_cons, if_neg (by simp [not_white_of_not_sep z hz])]
  rw [hd, trimEndChars]
  rcases joinSpace_last T hT with hnil | ⟨z, junk, heq, hz⟩
  · have h0 : joinSpace T = [] := by simpa using hnil
    rw [h0]
    rfl
  · rw [heq, List.dropWhile_cons, if_neg (by simp [not_white_of_not_sep z hz]),
      ← heq, List.reverse_reverse]

/-- CLAIM C7 (corrected): for every raw chord label `s`, with
`t = tokenizeGluedChords s`, provided the `cleanChordLabel` cleanup pass
leaves the space-joined output unchanged, re-tokenizing the space-joined
output gives the same token list.  (Without that proviso the cleanup pass
can merge a token starting with an accidental and a digit into its
predecessor.) -/
theorem tokenizer_idempotence_amended (s : String)
    (hfix : cleanChordLabel (joinSpaceStr (tokenizeGluedChords s))
        = joinSpaceStr (tokenizeGluedChords s)) :
    tokenizeGluedChords (joinSpaceStr (tokenizeGluedChords s)) = tokenizeGluedChords s := by
  have hid : ∀ x : List Char, (List.asString x).toList = x := fun x => rfl
  set T := glueTokens s.toList with hTdef
  have hTgood : ∀ tok ∈ T, GoodTok tok := by
    rw [hTdef, glueTokens]
    exact glueScan_tokens _ _ le_rfl none [] (by simp) (PR_nil none)
  have hjoin : joinSpaceStr (tokenizeGluedChords s) = (joinSpace T).asString := by
    rw [joinSpaceStr]
    congr 1
    congr 1
    rw [tokenizeGluedChords, List.map_map, ← hTdef]
    conv_rhs => rw [← List.map_id T]
    exact List.map_congr_left (fun x _ => hid x)
  have hclean : cleanLabelL (joinSpace T) = joinSpace T := by
    have h1 := hfix
    rw [hjoin, cleanChordLabel, hid (joinSpace T)] at h1
    have h2 := congrArg String.toList h1
    rw [hid, hid] at h2
    exact h2
  have hrhs : tokenizeGluedChords s = T.map List.asString := by
    rw [tokenizeGluedChords, ← hTdef]
  have hinner : glueTokens ((joinSpace T).asString).toList = T := by
    rw [glueTokens, hid, hclean, trim_joinSpace T hTgood]
    exact glueScan_join T hTgood
  rw [hjoin, hrhs, tokenizeGluedChords]
  exact congrArg (List.map List.asString) hinner

/-- Witness for C7 at the glued label `"E7Am"`: the tokens `["E7", "Am"]`
are stable under cleanup and re-tokenization. -/
theorem tokenizer_idempotence_amended_witness :
    (cleanChordLabel (joinSpaceStr (tokenizeGluedChords "E7Am"))
        = joinSpaceStr (tokenizeGluedChords "E7Am")) ∧
      tokenizeGluedChords (joinSpaceStr (tokenizeGluedChords "E7Am"))
        = tokenizeGluedChords "E7Am" :=
  ⟨by decide, tokenizer_idempotence_amended "E7Am" (by decide)⟩
